import Mathlib

/-!
Verification of the Object runtime (VCVRack/Object).

This file gives a shallow embedding of the two core components of the
repository and proves the frozen claims about them:

* `FlatMap` — the open-addressing hash table of `src/Object/FlatMap.hpp`
  (the `SizeT` variant with backward-shift deletion), specialized to
  pointer-sized keys and values, which we model as `Nat`.
* `Object` — the reference runtime of `src/src/Object.cpp` (the variant with
  the packed 64-bit reference-count word: low 32 bits strong, high 32 bits
  weak), with its create/ref/unref/weak/class/method operations.

Modelling conventions:

* Pointer-sized keys/values/ids are `Nat`; the all-zero bit pattern (empty
  slot, NULL) is `0`.
* The 64-bit multiply in the hash and the 64-bit atomic reference-count word
  wrap modulo `2 ^ 64`, written explicitly.
* `FlatMap`'s `capacity`, `mask`, and `size` are `SizeT = uint16_t` in the
  instantiation the runtime uses.  Every value the source stores in them is
  below `2 ^ 16`, so the fields are `Nat` holding those values, and the two
  computations that can leave 16 bits carry an explicit `% 2 ^ 16`: the
  growth argument `capacity * 2` of `rehash` (truncated by the `SizeT`
  parameter, so `rehash(2 ^ 16)` becomes `rehash(0)`) and `mask =
  newCapacity - 1` (which wraps to `0xFFFF` at `newCapacity = 0`).
* C `while`/`for` probe loops with data-dependent exit are embedded as
  fuel-indexed recursions returning `Option`; `none` models a loop that does
  not exit within the given fuel.  Below the 16-bit growth boundary this
  cannot happen for any state satisfying the table invariant `FlatMap.Inv`;
  at the boundary (`capacity = 2 ^ 15`, `size = 2 ^ 14`) the truncated
  `rehash(0)` makes the re-insertion probe a zero-length table, the C loop
  reads out of bounds and never exits, and the model answers `none`.
* The expression `(i - home) & mask` in `erase` is C `int` arithmetic on a
  two's-complement machine with `mask = capacity - 1` and
  `i, home < capacity`, where it equals the cyclic distance
  `(i + capacity - home) % capacity`; it is embedded as `cdist`.
* Atomic read-modify-write operations are modelled sequentially (the claims
  proved here are about sequential executions); `compare_exchange_weak`
  succeeds, since there is no interfering writer.
* `assert` is modelled as in a release (`NDEBUG`) build: a no-op.
-/

/-! ## Cyclic distance arithmetic -/

/-- Cyclic distance from `a` to `b` on a ring of `cap` slots: the value the C
source computes as `(b - a) & mask` in `int` arithmetic (two's complement)
when `a, b < cap` and `mask = cap - 1` with `cap` a power of two. -/
def cdist (cap a b : Nat) : Nat :=
  (b + cap - a) % cap

theorem cdist_closed {cap a b : Nat} (ha : a < cap) (hb : b < cap) :
    cdist cap a b = if a ≤ b then b - a else b + cap - a := by
  unfold cdist
  rcases le_or_lt a b with h | h
  · have h1 : b + cap - a = cap + (b - a) := by omega
    have h2 : b - a < cap := by omega
    simp [h1, Nat.add_mod_left, Nat.mod_eq_of_lt h2, h]
  · have h2 : b + cap - a < cap := by omega
    rw [Nat.mod_eq_of_lt h2, if_neg (by omega)]

theorem cdist_lt {cap a b : Nat} (ha : a < cap) (hb : b < cap) :
    cdist cap a b < cap := by
  rw [cdist_closed ha hb]
  split <;> omega

theorem cdist_self {cap a : Nat} (ha : a < cap) : cdist cap a a = 0 := by
  rw [cdist_closed ha ha]
  simp

theorem cdist_eq_zero_iff {cap a b : Nat} (ha : a < cap) (hb : b < cap) :
    cdist cap a b = 0 ↔ a = b := by
  rw [cdist_closed ha hb]
  split <;> omega

/-- Stepping the target one slot forward steps the distance by one, as long as
the target has not come all the way around to `a`. -/
theorem cdist_succ {cap a b : Nat} (ha : a < cap) (hb : b < cap)
    (h : (b + 1) % cap ≠ a) :
    cdist cap a ((b + 1) % cap) = cdist cap a b + 1 := by
  have hcap : 0 < cap := by omega
  rcases Nat.lt_or_ge (b + 1) cap with hb1 | hb1
  · rw [Nat.mod_eq_of_lt hb1] at h ⊢
    rw [cdist_closed ha hb, cdist_closed ha (by omega)]
    split <;> split <;> omega
  · have hbe : b + 1 = cap := by omega
    have : (b + 1) % cap = 0 := by simp [hbe]
    rw [this] at h ⊢
    have ha0 : 0 < a := by omega
    rw [cdist_closed ha hcap, cdist_closed ha hb]
    split <;> split <;> omega

/-- Decomposition: if `m` lies on the cyclic way from `a` to `b`, the distance
splits. -/
theorem cdist_decomp {cap a m b : Nat} (ha : a < cap) (hm : m < cap)
    (hb : b < cap) (h : cdist cap a m ≤ cdist cap a b) :
    cdist cap a b = cdist cap a m + cdist cap m b := by
  rw [cdist_closed ha hm, cdist_closed ha hb] at h
  rw [cdist_closed ha hm, cdist_closed ha hb, cdist_closed hm hb]
  split_ifs at h ⊢ <;> omega

/-! ## Array access helpers

The C code indexes `table[i]` for `i < capacity = table length`; we embed
this with `Array.getD`/`Array.setD`, which are total. -/

/-- One slot of the hash table: a key-value pair.  A zero key marks an empty
slot, matching `FlatMap::Entry` zero-initialization. -/
structure Entry where
  key : Nat
  value : Nat
deriving DecidableEq, Repr

/-- The all-zero entry, `Entry{}` in the source. -/
def Entry.zero : Entry := ⟨0, 0⟩

/-- Read slot `i`, the C expression `table[i]`. -/
def tget (t : Array Entry) (i : Nat) : Entry :=
  t.getD i Entry.zero

/-- Write slot `i`, the C statement `table[i] = e`. -/
def tset (t : Array Entry) (i : Nat) (e : Entry) : Array Entry :=
  t.setD i e

theorem size_tset (t : Array Entry) (i : Nat) (e : Entry) :
    (tset t i e).size = t.size := by
  simp [tset]

theorem tget_tset_eq {t : Array Entry} {i : Nat} (h : i < t.size) (e : Entry) :
    tget (tset t i e) i = e := by
  simp [tget, tset, Array.getD_eq_get?, Array.getElem?_setD_eq _ h]

theorem tget_tset_ne (t : Array Entry) {i j : Nat} (h : i ≠ j) (e : Entry) :
    tget (tset t i e) j = tget t j := by
  unfold tget tset Array.setD
  split
  · simp only [Array.getD_eq_get?]
    rw [Array.getElem?_set_ne]
    exact h
  · rfl

theorem tget_mkArray (n : Nat) (i : Nat) :
    tget (Array.mkArray n Entry.zero) i = Entry.zero := by
  unfold tget
  simp only [Array.getD_eq_get?]
  rcases Nat.lt_or_ge i n with h | h
  · rw [Array.getElem?_lt _ (by simpa using h)]
    simp [Array.getElem_mkArray]
  · rw [Array.getElem?_ge _ (by simpa using h)]
    rfl

/-! ## FlatMap: the open-addressing hash table

Embedding of `FlatMap<K, V, SizeT>` from `FlatMap.hpp` (the variant with
`clear()` and backward-shift deletion in `erase()`), with `K`/`V` read as
pointer-sized integers (`Nat`, zero meaning empty/NULL). -/

/-- The multiplier `0x9E3779B97F4A7C15` (2^64 divided by the golden ratio)
used by `FlatMap::hash`. -/
def goldenMul : Nat := 0x9E3779B97F4A7C15

/-- The map header.  `capacity`, `mask`, and `size` are `SizeT =
uint16_t` fields in the source; every value it stores in them is below
`2 ^ 16` (the operations that could exceed 16 bits are written with an
explicit `% 2 ^ 16` where they occur). -/
structure FlatMap where
  table : Array Entry
  capacity : Nat
  mask : Nat
  size : Nat
deriving DecidableEq, Repr

namespace FlatMap

/-- `FlatMap::clear()`.  With `capacity == 4` the table is zeroed in place
(`mask` is left untouched); otherwise the table is reallocated at the
starting capacity 4. -/
def clear (m : FlatMap) : FlatMap :=
  if m.capacity = 4 then
    { m with table := Array.mkArray m.capacity Entry.zero, size := 0 }
  else
    { table := Array.mkArray 4 Entry.zero, capacity := 4, mask := 3, size := 0 }

/-- `FlatMap()` — the default constructor starts with `capacity = 0` and
calls `clear()`, producing a zeroed table of capacity 4. -/
def init : FlatMap :=
  ⟨Array.mkArray 4 Entry.zero, 4, 3, 0⟩

/-- `FlatMap::hash`: `(uint64_t(key) * 0x9E3779B97F4A7C15ULL) & mask`.
The 64-bit multiply wraps modulo `2 ^ 64`. -/
def hash (m : FlatMap) (key : Nat) : Nat :=
  ((key * goldenMul) % 2 ^ 64) &&& m.mask

/-- The common probe loop
`while (table[i].key && table[i].key != key) i = (i + 1) & mask;`
shared by `insert` and `find`.  Returns the index at which the loop exits
(an empty slot or a slot holding `key`), or `none` if the loop does not
exit within `fuel` steps (the C loop would then cycle forever). -/
def probeLoop (t : Array Entry) (mask key : Nat) : Nat → Nat → Option Nat
  | 0, _ => none
  | fuel + 1, i =>
    let e := tget t i
    if e.key ≠ 0 ∧ e.key ≠ key then probeLoop t mask key fuel ((i + 1) &&& mask)
    else some i

/-- `FlatMap::find`: probe from `hash(key)`; stop at a matching slot
(returning a pointer to its value) or at an empty slot (returning NULL).
`none` is "not found" (the C NULL); fuel exhaustion, impossible under the
table invariant, is also mapped to `none`. -/
def find (m : FlatMap) (key : Nat) : Option Nat :=
  match probeLoop m.table m.mask key m.capacity (m.hash key) with
  | some i =>
    let e := tget m.table i
    if e.key = key ∧ e.key ≠ 0 then some e.value else none
  | none => none

/-- Writing through the `V*` pointer returned by `FlatMap::find` (used by
`Object_method_push` as `*existing = method`): replaces the value in the
slot where `find` located `key`, touching nothing else.  If `find` would
have returned NULL, nothing is written. -/
def writeThrough (m : FlatMap) (key value : Nat) : FlatMap :=
  match probeLoop m.table m.mask key m.capacity (m.hash key) with
  | some i =>
    let e := tget m.table i
    if e.key = key ∧ e.key ≠ 0 then { m with table := tset m.table i ⟨key, value⟩ }
    else m
  | none => m

/-- `FlatMap::empty`. -/
def empty (m : FlatMap) : Bool :=
  m.size == 0

mutual

/-- `FlatMap::insert`, fuel-indexed (the fuel bounds the depth of the
`insert`/`rehash` mutual recursion; depth 3 suffices for any state the
growth boundary has not destroyed).  Grows at 50% load factor before
probing.  The growth argument `capacity * 2` is computed in `int` but
passed through `rehash`'s `SizeT` (= `uint16_t`) parameter, hence the
explicit `% 2 ^ 16`: at `capacity = 2 ^ 15` the call becomes
`rehash(0)`. -/
def insertF : Nat → FlatMap → Nat → Nat → Option FlatMap
  | 0, _, _, _ => none
  | fuel + 1, m, key, value =>
    match (if m.size * 2 ≥ m.capacity
        then rehashF fuel m ((m.capacity * 2) % 2 ^ 16) else some m) with
    | none => none
    | some m1 =>
      match probeLoop m1.table m1.mask key m1.capacity (m1.hash key) with
      | none => none
      | some i =>
        let e := tget m1.table i
        let m2 := if e.key = 0 then { m1 with size := m1.size + 1 } else m1
        some { m2 with table := tset m2.table i ⟨key, value⟩ }

/-- `FlatMap::rehash`: allocate a zeroed table of `newCapacity` slots and
re-`insert` every live entry of the old table in index order.
`mask = newCapacity - 1` is `uint16_t` arithmetic, hence the explicit
mod: for `newCapacity = 0` (the truncated growth call) it wraps to
`0xFFFF`, and the re-insertions then probe a zero-length table — the C
loop reads out of bounds and never exits, which the fuel maps to
`none`. -/
def rehashF : Nat → FlatMap → Nat → Option FlatMap
  | 0, _, _ => none
  | fuel + 1, m, newCapacity =>
    let start : FlatMap :=
      ⟨Array.mkArray newCapacity Entry.zero, newCapacity,
        (newCapacity + 2 ^ 16 - 1) % 2 ^ 16, 0⟩
    m.table.foldl
      (fun acc e =>
        match acc with
        | none => none
        | some mm => if e.key ≠ 0 then insertF fuel mm e.key e.value else some mm)
      (some start)

end

/-- `FlatMap::insert` at the fuel depth sufficient for every state
satisfying the invariant (one growth step, whose re-insertions do not grow
again). -/
def insert (m : FlatMap) (key value : Nat) : Option FlatMap :=
  insertF 3 m key value

/-- The backward-shift loop of `FlatMap::erase`: after locating `key` at
slot `i`, scan forward from `j = i + 1`; an entry at `j` whose home lies
cyclically at or before the current gap `i` is moved into the gap, which
then becomes `j`.  At the first empty slot the gap is zeroed.  `cdist`
embeds the C expressions `(i - home) & mask` and `(j - home) & mask`. -/
def eraseShift (mask : Nat) : Nat → Array Entry → Nat → Nat → Option (Array Entry)
  | 0, _, _, _ => none
  | fuel + 1, t, i, j =>
    let e := tget t j
    if e.key = 0 then some (tset t i Entry.zero)
    else
      let home := ((e.key * goldenMul) % 2 ^ 64) &&& mask
      if cdist (mask + 1) home i < cdist (mask + 1) home j then
        eraseShift mask fuel (tset t i e) j ((j + 1) &&& mask)
      else
        eraseShift mask fuel t i ((j + 1) &&& mask)

/-- The outer loop of `FlatMap::erase`: probe for `key` from its home; on a
match decrement `size` and run the backward shift; at an empty slot return
with no change. -/
def eraseOuter (m : FlatMap) (key : Nat) : Nat → Nat → Option FlatMap
  | 0, _ => none
  | fuel + 1, i =>
    let e := tget m.table i
    if e.key = 0 then some m
    else if e.key = key then
      match eraseShift m.mask m.capacity m.table i ((i + 1) &&& m.mask) with
      | some t => some { m with table := t, size := m.size - 1 }
      | none => none
    else eraseOuter m key fuel ((i + 1) &&& m.mask)

/-- `FlatMap::erase`. -/
def erase (m : FlatMap) (key : Nat) : Option FlatMap :=
  eraseOuter m key m.capacity (m.hash key)

end FlatMap

/-! ## Further cyclic-distance lemmas -/

theorem cdist_from_succ {cap i p : Nat} (hi : i < cap) (hp : p < cap)
    (hne : p ≠ i) :
    cdist cap i p = cdist cap ((i + 1) % cap) p + 1 := by
  have hcap : 0 < cap := by omega
  rcases Nat.lt_or_ge (i + 1) cap with h1 | h1
  · rw [Nat.mod_eq_of_lt h1, cdist_closed hi hp, cdist_closed (by omega) hp]
    split_ifs <;> omega
  · have hie : i + 1 = cap := by omega
    have h0 : (i + 1) % cap = 0 := by simp [hie]
    rw [h0, cdist_closed hi hp, cdist_closed hcap hp]
    split_ifs <;> omega

/-! ## The FlatMap invariant -/

namespace FlatMap

/-- A slot's stored entry. -/
def slot (m : FlatMap) (i : Nat) : Entry :=
  tget m.table i

/-- The set of occupied slot indices. -/
def occupied (m : FlatMap) : Finset Nat :=
  (Finset.range m.capacity).filter fun i => (tget m.table i).key ≠ 0

/-- Invariant of every reachable `FlatMap` state:
capacity is a power of two of at least 4, the table has `capacity` slots,
`mask = capacity - 1`, the load factor is at most 50%, `size` counts the
occupied slots, occupied keys are pairwise distinct, and every occupied
slot is reachable from its key's home by probing over occupied slots only
(no empty slot strictly between home and the slot). -/
structure Inv (m : FlatMap) : Prop where
  kpow : ∃ j, 2 ≤ j ∧ m.capacity = 2 ^ j
  len : m.table.size = m.capacity
  mask_eq : m.mask = m.capacity - 1
  load : 2 * m.size ≤ m.capacity
  count : m.size = m.occupied.card
  nodup : ∀ i j, i < m.capacity → j < m.capacity → (tget m.table i).key ≠ 0 →
    (tget m.table i).key = (tget m.table j).key → i = j
  probe : ∀ j, j < m.capacity → (tget m.table j).key ≠ 0 →
    ∀ p, p < m.capacity →
      cdist m.capacity (m.hash (tget m.table j).key) p <
        cdist m.capacity (m.hash (tget m.table j).key) j →
      (tget m.table p).key ≠ 0

/-- The pair `(k, v)` is stored in the table. -/
def HasPair (m : FlatMap) (k v : Nat) : Prop :=
  ∃ i, i < m.capacity ∧ tget m.table i = ⟨k, v⟩ ∧ k ≠ 0

theorem Inv.cap_pos {m : FlatMap} (h : Inv m) : 0 < m.capacity := by
  obtain ⟨j, _, hj⟩ := h.kpow
  exact hj ▸ Nat.pos_pow_of_pos j (by omega)

theorem Inv.cap_ge_four {m : FlatMap} (h : Inv m) : 4 ≤ m.capacity := by
  obtain ⟨j, hj2, hj⟩ := h.kpow
  have : 2 ^ 2 ≤ 2 ^ j := Nat.pow_le_pow_right (by omega) hj2
  omega

theorem Inv.and_mask {m : FlatMap} (h : Inv m) (x : Nat) :
    x &&& m.mask = x % m.capacity := by
  obtain ⟨j, _, hj⟩ := h.kpow
  rw [h.mask_eq, hj]
  exact Nat.and_pow_two_sub_one_eq_mod x j

theorem Inv.hash_lt {m : FlatMap} (h : Inv m) (k : Nat) :
    m.hash k < m.capacity := by
  unfold hash
  rw [h.and_mask]
  exact Nat.mod_lt _ h.cap_pos

theorem Inv.step_lt {m : FlatMap} (h : Inv m) (i : Nat) :
    (i + 1) &&& m.mask < m.capacity := by
  rw [h.and_mask]
  exact Nat.mod_lt _ h.cap_pos

/-- Under the 50% load bound there is always an empty slot. -/
theorem Inv.exists_empty_slot {m : FlatMap} (h : Inv m) :
    ∃ i, i < m.capacity ∧ (tget m.table i).key = 0 := by
  by_contra hc
  push_neg at hc
  have hall : m.occupied = Finset.range m.capacity := by
    apply Finset.filter_true_of_mem
    intro i hi
    exact hc i (Finset.mem_range.mp hi)
  have hcard : m.occupied.card = m.capacity := by
    rw [hall, Finset.card_range]
  have := h.count
  have := h.load
  have := h.cap_ge_four
  omega

end FlatMap

/-! ## Characterization of the probe loop -/

section ProbeChar

variable {t : Array Entry} {mask key : Nat}

/-- The loop exit condition: an empty slot or a slot holding `key`. -/
def probeStop (t : Array Entry) (key : Nat) (j : Nat) : Prop :=
  (tget t j).key = 0 ∨ (tget t j).key = key

/-- Soundness half: when the probe loop answers, it answers the first
stopping slot on the cyclic path from the start. -/
theorem probeLoop_eq_some_of {cap : Nat} (hcap : mask + 1 = cap)
    (hpow : ∃ u, cap = 2 ^ u) :
    ∀ (fuel i j : Nat), i < cap → j < cap → probeStop t key j →
      (∀ p, p < cap → cdist cap i p < cdist cap i j → ¬ probeStop t key p) →
      cdist cap i j < fuel →
      FlatMap.probeLoop t mask key fuel i = some j := by
  intro fuel
  induction fuel with
  | zero => intro i j _ _ _ _ hf; omega
  | succ f ih =>
    intro i j hi hj hstop hmin hf
    simp only [FlatMap.probeLoop]
    by_cases hstopi : probeStop t key i
    · have hij : j = i := by
        by_contra hne
        have h0 : cdist cap i i = 0 := cdist_self hi
        have : 0 < cdist cap i j := by
          rcases Nat.eq_zero_or_pos (cdist cap i j) with hz | hz
          · exact absurd ((cdist_eq_zero_iff hi hj).mp hz).symm hne
          · exact hz
        exact hmin i hi (by omega) hstopi
      have hncond : ¬ ((tget t i).key ≠ 0 ∧ (tget t i).key ≠ key) := by
        unfold probeStop at hstopi
        tauto
      rw [if_neg hncond]
      exact congrArg some hij.symm
    · have hcond : (tget t i).key ≠ 0 ∧ (tget t i).key ≠ key := by
        unfold probeStop at hstopi
        tauto
      rw [if_pos hcond]
      obtain ⟨u, hu⟩ := hpow
      have hstep : (i + 1) &&& mask = (i + 1) % cap := by
        have : mask = 2 ^ u - 1 := by omega
        rw [this, Nat.and_pow_two_sub_one_eq_mod, hu]
      rw [hstep]
      have hne : j ≠ i := fun he => hstopi (he ▸ hstop)
      have hi' : (i + 1) % cap < cap := Nat.mod_lt _ (by omega)
      apply ih _ j hi' hj hstop
      · intro p hp hplt
        by_cases hpi : p = i
        · exact hpi ▸ hstopi
        · apply hmin p hp
          rw [cdist_from_succ hi hp hpi, cdist_from_succ hi hj hne]
          omega
      · rw [cdist_from_succ hi hj hne] at hf
        omega

/-- Completeness half: an answer of the probe loop is a stopping slot, in
range, and nothing stops strictly before it on the cyclic path. -/
theorem probeLoop_some_inv {cap : Nat} (hcap : mask + 1 = cap)
    (hpow : ∃ u, cap = 2 ^ u) :
    ∀ (fuel i j : Nat), i < cap →
      FlatMap.probeLoop t mask key fuel i = some j →
      j < cap ∧ probeStop t key j ∧
        (∀ p, p < cap → cdist cap i p < cdist cap i j → ¬ probeStop t key p) := by
  intro fuel
  induction fuel with
  | zero => intro i j _ h; simp [FlatMap.probeLoop] at h
  | succ f ih =>
    intro i j hi h
    simp only [FlatMap.probeLoop] at h
    by_cases hcond : (tget t i).key ≠ 0 ∧ (tget t i).key ≠ key
    · rw [if_pos hcond] at h
      obtain ⟨u, hu⟩ := hpow
      have hstep : (i + 1) &&& mask = (i + 1) % cap := by
        have : mask = 2 ^ u - 1 := by omega
        rw [this, Nat.and_pow_two_sub_one_eq_mod, hu]
      rw [hstep] at h
      have hi' : (i + 1) % cap < cap := Nat.mod_lt _ (by omega)
      obtain ⟨hj, hstop, hmin⟩ := ih _ j hi' h
      have hstopi : ¬ probeStop t key i := by
        unfold probeStop
        tauto
      have hne : j ≠ i := fun he => hstopi (he ▸ hstop)
      refine ⟨hj, hstop, ?_⟩
      intro p hp hplt
      by_cases hpi : p = i
      · exact hpi ▸ hstopi
      · apply hmin p hp
        rw [cdist_from_succ hi hp hpi, cdist_from_succ hi hj hne] at hplt
        omega
    · rw [if_neg hcond] at h
      cases h
      refine ⟨hi, ?_, ?_⟩
      · unfold probeStop
        tauto
      · intro p hp hplt
        rw [cdist_self hi] at hplt
        omega

/-- Termination: if some slot stops the probe, the loop answers within
`cap` steps from any start. -/
theorem probeLoop_total {cap : Nat} (hcap : mask + 1 = cap)
    (hpow : ∃ u, cap = 2 ^ u)
    (hex : ∃ j, j < cap ∧ probeStop t key j) :
    ∀ i, i < cap → ∀ fuel, cap ≤ fuel →
      ∃ j, FlatMap.probeLoop t mask key fuel i = some j := by
  intro i hi fuel hfuel
  obtain ⟨j0, hj0, hstop0⟩ := hex
  set S : Finset Nat := (Finset.range cap).filter
    (fun p => (tget t p).key = 0 ∨ (tget t p).key = key) with hS
  have hS0 : j0 ∈ S := by
    simp only [hS, Finset.mem_filter, Finset.mem_range]
    exact ⟨hj0, hstop0⟩
  obtain ⟨j, hjS, hjmin⟩ := S.exists_min_image (fun p => cdist cap i p) ⟨j0, hS0⟩
  simp only [hS, Finset.mem_filter, Finset.mem_range] at hjS
  refine ⟨j, probeLoop_eq_some_of hcap hpow fuel i j hi hjS.1 hjS.2 ?_ ?_⟩
  · intro p hp hplt hstopp
    have hpS : p ∈ S := by
      simp only [hS, Finset.mem_filter, Finset.mem_range]
      exact ⟨hp, hstopp⟩
    have := hjmin p hpS
    omega
  · have := cdist_lt hi hjS.1
    omega

end ProbeChar

/-! ## Injectivity of cyclic distance -/

theorem cdist_inj {cap a b c : Nat} (ha : a < cap) (hb : b < cap)
    (hc : c < cap) (h : cdist cap a b = cdist cap a c) : b = c := by
  rw [cdist_closed ha hb, cdist_closed ha hc] at h
  split_ifs at h <;> omega


/-! ## Semantics of find -/

namespace FlatMap

theorem Inv.pow_exists {m : FlatMap} (h : Inv m) : ∃ u, m.capacity = 2 ^ u := by
  obtain ⟨j, _, hj⟩ := h.kpow
  exact ⟨j, hj⟩

theorem Inv.mask_succ {m : FlatMap} (h : Inv m) : m.mask + 1 = m.capacity := by
  have := h.cap_pos
  rw [h.mask_eq]
  omega

theorem Inv.probe_total {m : FlatMap} (h : Inv m) (key : Nat) :
    ∃ j, probeLoop m.table m.mask key m.capacity (m.hash key) = some j := by
  obtain ⟨i, hi, he⟩ := h.exists_empty_slot
  exact probeLoop_total h.mask_succ h.pow_exists ⟨i, hi, Or.inl he⟩
    (m.hash key) (h.hash_lt key) m.capacity le_rfl

theorem find_eq_probe {m : FlatMap} {k i : Nat}
    (hpl : probeLoop m.table m.mask k m.capacity (m.hash k) = some i) :
    m.find k = if (tget m.table i).key = k ∧ (tget m.table i).key ≠ 0
      then some (tget m.table i).value else none := by
  unfold find
  rw [hpl]

theorem find_some_of_hasPair {m : FlatMap} (h : Inv m) {k v : Nat}
    (hp : HasPair m k v) : m.find k = some v := by
  obtain ⟨j, hj, hje, hk0⟩ := hp
  have hkey : (tget m.table j).key = k := by rw [hje]
  have hval : (tget m.table j).value = v := by rw [hje]
  have hpl : probeLoop m.table m.mask k m.capacity (m.hash k) = some j := by
    apply probeLoop_eq_some_of h.mask_succ h.pow_exists _ _ _ (h.hash_lt k) hj
    · exact Or.inr hkey
    · intro p hp' hplt hstop
      rcases hstop with hemp | hmatch
      · have := h.probe j hj (by rw [hkey]; exact hk0) p hp'
        rw [hkey] at this
        exact this hplt hemp
      · have hpj : p = j := h.nodup p j hp' hj (by rw [hmatch]; exact hk0)
          (by rw [hmatch, hkey])
        subst hpj
        omega
    · have := cdist_lt (h.hash_lt k) hj
      omega
  rw [find_eq_probe hpl, if_pos ⟨hkey, by rw [hkey]; exact hk0⟩, hval]

theorem hasPair_of_find_some {m : FlatMap} (h : Inv m) {k v : Nat}
    (hf : m.find k = some v) : HasPair m k v := by
  cases hpl : probeLoop m.table m.mask k m.capacity (m.hash k) with
  | none => unfold find at hf; rw [hpl] at hf; cases hf
  | some i =>
    rw [find_eq_probe hpl] at hf
    obtain ⟨hi, _, _⟩ := probeLoop_some_inv h.mask_succ h.pow_exists
      m.capacity _ i (h.hash_lt k) hpl
    by_cases hcond : (tget m.table i).key = k ∧ (tget m.table i).key ≠ 0
    · rw [if_pos hcond] at hf
      cases hf
      refine ⟨i, hi, ?_, ?_⟩
      · show tget m.table i = ⟨k, (tget m.table i).value⟩
        cases he : tget m.table i
        rw [he] at hcond
        simp_all
      · rw [← hcond.1]; exact hcond.2
    · rw [if_neg hcond] at hf
      cases hf

theorem hasPair_unique {m : FlatMap} (h : Inv m) {k v v' : Nat}
    (h1 : HasPair m k v) (h2 : HasPair m k v') : v = v' := by
  obtain ⟨i, hi, hie, hk0⟩ := h1
  obtain ⟨j, hj, hje, _⟩ := h2
  have hij : i = j := by
    apply h.nodup i j hi hj
    · rw [hie]; exact hk0
    · rw [hie, hje]
  rw [hij, hje] at hie
  cases hie
  rfl

theorem find_iff {m : FlatMap} (h : Inv m) {k v : Nat} :
    m.find k = some v ↔ HasPair m k v :=
  ⟨hasPair_of_find_some h, find_some_of_hasPair h⟩

theorem find_eq_none_iff {m : FlatMap} (h : Inv m) {k : Nat} :
    m.find k = none ↔ ∀ v, ¬ HasPair m k v := by
  constructor
  · intro hnone v hp
    have := find_some_of_hasPair h hp
    rw [hnone] at this
    cases this
  · intro hno
    cases hfind : m.find k with
    | none => rfl
    | some v => exact absurd (hasPair_of_find_some h hfind) (hno v)

/-! ## The fresh zeroed table -/

theorem Inv_fresh {u : Nat} (h2 : 2 ≤ u) :
    Inv ⟨Array.mkArray (2 ^ u) Entry.zero, 2 ^ u, 2 ^ u - 1, 0⟩ := by
  constructor
  · exact ⟨u, h2, rfl⟩
  · simp
  · rfl
  · simp
  · show 0 = Finset.card (Finset.filter _ _)
    rw [Finset.filter_false_of_mem, Finset.card_empty]
    intro i _
    simp only [tget_mkArray]
    simp [Entry.zero]
  · intro i j _ _ hkey _
    rw [tget_mkArray] at hkey
    exact absurd rfl hkey
  · intro j _ hkey
    rw [tget_mkArray] at hkey
    exact absurd rfl hkey

theorem Inv_init : Inv init := by
  have h : init = ⟨Array.mkArray (2 ^ 2) Entry.zero, 2 ^ 2, 2 ^ 2 - 1, 0⟩ := by
    unfold init
    norm_num
  rw [h]
  exact Inv_fresh le_rfl

theorem not_hasPair_init (k v : Nat) : ¬ HasPair init k v := by
  rintro ⟨i, _, hie, hk0⟩
  unfold init at hie
  rw [tget_mkArray] at hie
  cases hie
  exact hk0 rfl

end FlatMap

/-! ## Semantics of insert (without growth) -/

namespace FlatMap

theorem mem_occupied {m : FlatMap} {p : Nat} :
    p ∈ m.occupied ↔ p < m.capacity ∧ (tget m.table p).key ≠ 0 := by
  simp [occupied]

theorem tget_tset_eq' {m : FlatMap} (h : Inv m) {i : Nat} (hi : i < m.capacity)
    (e : Entry) : tget (tset m.table i e) i = e :=
  tget_tset_eq (by rw [h.len]; exact hi) e

/-- A table change that preserves all keys (and the bookkeeping fields)
preserves the invariant. -/
theorem Inv.of_keys_eq {m m' : FlatMap} (h : Inv m)
    (hcap : m'.capacity = m.capacity) (hmask : m'.mask = m.mask)
    (hsize : m'.size = m.size) (hlen : m'.table.size = m'.capacity)
    (hkeys : ∀ p, (tget m'.table p).key = (tget m.table p).key) : Inv m' := by
  have hhash : ∀ x, m'.hash x = m.hash x := by
    intro x
    unfold hash
    rw [hmask]
  constructor
  · rw [hcap]; exact h.kpow
  · exact hlen
  · rw [hmask, hcap, h.mask_eq]
  · rw [hsize, hcap]; exact h.load
  · rw [hsize, h.count]
    unfold occupied
    congr 1
    rw [hcap]
    apply Finset.filter_congr
    intro p _
    rw [hkeys p]
  · intro i j hi hj hk he
    rw [hcap] at hi hj
    rw [hkeys] at hk he
    rw [hkeys j] at he
    exact h.nodup i j hi hj hk he
  · intro j hj hk p hp hlt
    rw [hcap] at hj hp
    rw [hkeys] at hk ⊢
    rw [hkeys j, hhash, hcap] at hlt
    exact h.probe j hj hk p hp hlt

/-- Unfolding `insertF` when no growth is triggered and the probe answers. -/
theorem insertF_no_grow_eq {m : FlatMap} {k v : Nat} {fuel i : Nat}
    (hng : ¬ m.size * 2 ≥ m.capacity)
    (hpl : probeLoop m.table m.mask k m.capacity (m.hash k) = some i) :
    insertF (fuel + 1) m k v = some (if (tget m.table i).key = 0
      then { m with size := m.size + 1, table := tset m.table i ⟨k, v⟩ }
      else { m with table := tset m.table i ⟨k, v⟩ }) := by
  rw [insertF, if_neg hng]
  simp only [hpl]
  by_cases hkey : (tget m.table i).key = 0
  · rw [if_pos hkey, if_pos hkey]
  · rw [if_neg hkey, if_neg hkey]

/-- Full specification of a non-growing `insert` step: result, invariant
preservation, contents, and frame facts. -/
theorem insert_no_grow {m : FlatMap} (h : Inv m) {k : Nat} (v : Nat)
    (hk : k ≠ 0) (hng : m.size * 2 < m.capacity) (fuel : Nat) :
    ∃ m', insertF (fuel + 1) m k v = some m' ∧ Inv m' ∧
      m'.capacity = m.capacity ∧ m'.mask = m.mask ∧
      (∀ k' v', HasPair m' k' v' ↔
        (k' = k ∧ v' = v) ∨ (k' ≠ k ∧ HasPair m k' v')) ∧
      ((∃ w, m.find k = some w) → m'.size = m.size ∧
        ∃ i, i < m.capacity ∧ (tget m.table i).key = k ∧
          m'.table = tset m.table i ⟨k, v⟩) ∧
      (m.find k = none → m'.size = m.size + 1) := by
  obtain ⟨i, hpl⟩ := h.probe_total k
  obtain ⟨hi, hstop, hmin⟩ := probeLoop_some_inv h.mask_succ h.pow_exists
    m.capacity _ i (h.hash_lt k) hpl
  have hlen_i : i < m.table.size := by rw [h.len]; exact hi
  have heq := @insertF_no_grow_eq m k v fuel i
    (by omega) hpl
  by_cases hkey0 : (tget m.table i).key = 0
  · -- new slot: `k` is not yet in the table
    rw [if_pos hkey0] at heq
    set m' : FlatMap :=
      { m with size := m.size + 1, table := tset m.table i ⟨k, v⟩ } with hm'
    have hnok : ∀ p, p < m.capacity → (tget m.table p).key ≠ k := by
      intro p hp hpk
      have hp0 : (tget m.table p).key ≠ 0 := by rw [hpk]; exact hk
      have hpi : p ≠ i := by
        intro he
        rw [he] at hpk
        rw [hpk] at hkey0
        exact hk hkey0
      rcases Nat.lt_trichotomy (cdist m.capacity (m.hash k) p)
        (cdist m.capacity (m.hash k) i) with hlt | heq' | hgt
      · exact hmin p hp hlt (Or.inr hpk)
      · exact hpi (cdist_inj (h.hash_lt k) hp hi heq')
      · have := h.probe p hp hp0 i hi (by rw [hpk]; exact hgt)
        exact this hkey0
    have htget : ∀ p, p ≠ i → tget m'.table p = tget m.table p := by
      intro p hpi
      exact tget_tset_ne m.table (fun he => hpi he.symm) _
    have htgeti : tget m'.table i = ⟨k, v⟩ := tget_tset_eq hlen_i _
    have hfind_none : m.find k = none := by
      rw [find_eq_none_iff h]
      rintro v' ⟨p, hp, hpe, _⟩
      exact hnok p hp (by rw [hpe])
    have hocc : m'.occupied = Insert.insert i m.occupied := by
      ext p
      simp only [mem_occupied, Finset.mem_insert]
      constructor
      · rintro ⟨hp, hpne⟩
        by_cases hpi : p = i
        · exact Or.inl hpi
        · rw [htget p hpi] at hpne
          exact Or.inr ⟨hp, hpne⟩
      · rintro (hpi | ⟨hp, hpne⟩)
        · subst hpi
          exact ⟨hi, by rw [htgeti]; exact hk⟩
        · by_cases hpi : p = i
          · subst hpi
            exact ⟨hp, by rw [htgeti]; exact hk⟩
          · rw [htget p hpi]
            exact ⟨hp, hpne⟩
    have hInv' : Inv m' := by
      constructor
      · exact h.kpow
      · show (tset m.table i _).size = m.capacity
        rw [size_tset, h.len]
      · exact h.mask_eq
      · obtain ⟨j, hj2, hcap⟩ := h.kpow
        have heven : 2 ∣ m.capacity := hcap ▸ dvd_pow_self 2 (by omega)
        show 2 * (m.size + 1) ≤ m.capacity
        omega
      · show m.size + 1 = m'.occupied.card
        rw [hocc, Finset.card_insert_of_not_mem, ← h.count]
        intro hmem
        exact (mem_occupied.mp hmem).2 hkey0
      · intro p q hp hq hpne hpq
        by_cases hpi : p = i <;> by_cases hqi : q = i
        · rw [hpi, hqi]
        · subst hpi
          rw [htgeti] at hpq
          rw [htget q hqi] at hpq
          exact absurd hpq.symm (hnok q hq)
        · subst hqi
          rw [htgeti] at hpq
          rw [htget p hpi] at hpne hpq
          exact absurd hpq (hnok p hp)
        · rw [htget p hpi] at hpne hpq
          rw [htget q hqi] at hpq
          exact h.nodup p q hp hq hpne hpq
      · intro j hj hjne p hp hlt
        have hhash' : m'.hash = m.hash := rfl
        by_cases hpi : p = i
        · rw [hpi, htgeti]
          exact hk
        · rw [htget p hpi]
          by_cases hji : j = i
          · subst hji
            rw [htgeti] at hlt
            have hminp := hmin p hp (by exact hlt)
            unfold probeStop at hminp
            tauto
          · rw [htget j hji] at hjne hlt
            exact h.probe j hj hjne p hp hlt
    refine ⟨m', heq, hInv', rfl, rfl, ?_, ?_, ?_⟩
    · intro k' v'
      constructor
      · rintro ⟨p, hp, hpe, hk0'⟩
        by_cases hpi : p = i
        · subst hpi
          rw [htgeti] at hpe
          cases hpe
          exact Or.inl ⟨rfl, rfl⟩
        · rw [htget p hpi] at hpe
          refine Or.inr ⟨?_, p, hp, hpe, hk0'⟩
          intro hkk
          subst hkk
          exact hnok p hp (by rw [hpe])
      · rintro (⟨hkk, hvv⟩ | ⟨hkne, p, hp, hpe, hk0'⟩)
        · subst hkk; subst hvv
          exact ⟨i, hi, htgeti, hk⟩
        · have hpi : p ≠ i := by
            intro he
            subst he
            rw [hpe] at hkey0
            exact hk0' hkey0
          exact ⟨p, hp, by rw [htget p hpi]; exact hpe, hk0'⟩
    · rintro ⟨w, hw⟩
      rw [hfind_none] at hw
      cases hw
    · intro
      rfl
  · -- overwrite: the probe stopped on `k`'s own slot
    rw [if_neg hkey0] at heq
    have hik : (tget m.table i).key = k := by
      unfold probeStop at hstop
      tauto
    set m' : FlatMap := { m with table := tset m.table i ⟨k, v⟩ } with hm'
    have htget : ∀ p, p ≠ i → tget m'.table p = tget m.table p := by
      intro p hpi
      exact tget_tset_ne m.table (fun he => hpi he.symm) _
    have htgeti : tget m'.table i = ⟨k, v⟩ := tget_tset_eq hlen_i _
    have hInv' : Inv m' := by
      refine Inv.of_keys_eq h rfl rfl rfl ?_ ?_
      · show (tset m.table i _).size = m.capacity
        rw [size_tset, h.len]
      · intro p
        by_cases hpi : p = i
        · subst hpi
          rw [htgeti, hik]
        · rw [htget p hpi]
    refine ⟨m', heq, hInv', rfl, rfl, ?_, ?_, ?_⟩
    · intro k' v'
      constructor
      · rintro ⟨p, hp, hpe, hk0'⟩
        by_cases hpi : p = i
        · subst hpi
          rw [htgeti] at hpe
          cases hpe
          exact Or.inl ⟨rfl, rfl⟩
        · rw [htget p hpi] at hpe
          refine Or.inr ⟨?_, p, hp, hpe, hk0'⟩
          intro hkk
          subst hkk
          exact hpi (h.nodup p i hp hi (by rw [hpe]; exact hk0') (by rw [hpe, hik]))
      · rintro (⟨hkk, hvv⟩ | ⟨hkne, p, hp, hpe, hk0'⟩)
        · subst hkk; subst hvv
          exact ⟨i, hi, htgeti, hk⟩
        · have hpi : p ≠ i := by
            intro he
            subst he
            rw [hpe] at hik
            exact hkne (by rw [← hik])
          exact ⟨p, hp, by rw [htget p hpi]; exact hpe, hk0'⟩
    · intro
      exact ⟨rfl, i, hi, hik, rfl⟩
    · intro hnone
      exfalso
      have hp : HasPair m k (tget m.table i).value :=
        ⟨i, hi, by cases he : tget m.table i with
          | mk a b =>
            rw [he] at hik
            simp only at hik
            rw [hik], hk⟩
      rw [find_eq_none_iff h] at hnone
      exact hnone _ hp

/-! ## Keys, size, and table-contents bridges -/

theorem tget_eq_getElem {t : Array Entry} {i : Nat} (h : i < t.size) :
    tget t i = t[i] := by
  unfold tget
  simp [Array.getD_eq_get?, Array.getElem?_lt _ h]

/-- The occupied keys of the table. -/
def keys (m : FlatMap) : Finset Nat :=
  m.occupied.image fun i => (tget m.table i).key

theorem mem_keys_iff {m : FlatMap} {k : Nat} :
    k ∈ m.keys ↔ ∃ v, HasPair m k v := by
  unfold keys
  simp only [Finset.mem_image, mem_occupied]
  constructor
  · rintro ⟨i, ⟨hi, hne⟩, hk⟩
    refine ⟨(tget m.table i).value, i, hi, ?_, hk ▸ hne⟩
    rw [← hk]
  · rintro ⟨v, i, hi, hie, hk0⟩
    exact ⟨i, ⟨hi, by rw [hie]; exact hk0⟩, by rw [hie]⟩

theorem card_keys {m : FlatMap} (h : Inv m) : m.keys.card = m.occupied.card := by
  unfold keys
  apply Finset.card_image_of_injOn
  intro i hi j hj hij
  exact h.nodup i j (mem_occupied.mp hi).1 (mem_occupied.mp hj).1
    (mem_occupied.mp hi).2 hij

theorem size_eq_keys_card {m : FlatMap} (h : Inv m) : m.size = m.keys.card := by
  rw [h.count, card_keys h]

theorem size_eq_of_hasPair_iff {m m' : FlatMap} (h : Inv m) (h' : Inv m')
    (hiff : ∀ k v, HasPair m k v ↔ HasPair m' k v) : m.size = m'.size := by
  have hkeys : m.keys = m'.keys := by
    ext k
    simp only [mem_keys_iff]
    constructor
    · rintro ⟨v, hv⟩
      exact ⟨v, (hiff k v).mp hv⟩
    · rintro ⟨v, hv⟩
      exact ⟨v, (hiff k v).mpr hv⟩
  rw [size_eq_keys_card h, size_eq_keys_card h', hkeys]

theorem size_eq_zero_iff {m : FlatMap} (h : Inv m) :
    m.size = 0 ↔ ∀ k v, ¬ HasPair m k v := by
  rw [size_eq_keys_card h, Finset.card_eq_zero]
  constructor
  · intro hempty k v hp
    have : k ∈ m.keys := mem_keys_iff.mpr ⟨v, hp⟩
    rw [hempty] at this
    cases this
  · intro hno
    rw [Finset.eq_empty_iff_forall_not_mem]
    intro k hk
    obtain ⟨v, hv⟩ := mem_keys_iff.mp hk
    exact hno k v hv

theorem hasPair_iff_mem_toList {m : FlatMap} (hlen : m.table.size = m.capacity)
    {k v : Nat} :
    HasPair m k v ↔ (⟨k, v⟩ : Entry) ∈ m.table.toList ∧ k ≠ 0 := by
  constructor
  · rintro ⟨i, hi, hie, hk0⟩
    refine ⟨?_, hk0⟩
    have hi' : i < m.table.size := by omega
    rw [tget_eq_getElem hi'] at hie
    rw [← hie]
    rw [Array.getElem_eq_getElem_toList]
    exact List.getElem_mem _
  · rintro ⟨hmem, hk0⟩
    obtain ⟨i, hilen, hie⟩ := List.mem_iff_getElem.mp hmem
    have hi' : i < m.table.size := by
      have : m.table.toList.length = m.table.size := Array.length_toList
      omega
    refine ⟨i, by omega, ?_, hk0⟩
    rw [tget_eq_getElem hi', Array.getElem_eq_getElem_toList]
    exact hie

theorem pairwise_keys_toList {m : FlatMap} (h : Inv m) :
    m.table.toList.Pairwise fun a b => a.key ≠ 0 → b.key ≠ 0 → a.key ≠ b.key := by
  rw [List.pairwise_iff_getElem]
  intro i j hi hj hij
  have hlen : m.table.toList.length = m.table.size := Array.length_toList
  have hi' : i < m.table.size := by omega
  have hj' : j < m.table.size := by omega
  have hgi : m.table.toList[i] = tget m.table i := by
    rw [tget_eq_getElem hi', Array.getElem_eq_getElem_toList]
  have hgj : m.table.toList[j] = tget m.table j := by
    rw [tget_eq_getElem hj', Array.getElem_eq_getElem_toList]
  rw [hgi, hgj]
  intro ha _ hke
  have hicap : i < m.capacity := by rw [← h.len]; omega
  have hjcap : j < m.capacity := by rw [← h.len]; omega
  exact absurd (h.nodup i j hicap hjcap ha hke) (by omega)

/-! ## Semantics of rehash and full insert -/

theorem Inv_fresh' {cap u : Nat} (hcap : cap = 2 ^ u) (h2 : 2 ≤ u) :
    Inv ⟨Array.mkArray cap Entry.zero, cap, cap - 1, 0⟩ := by
  subst hcap
  exact Inv_fresh h2

theorem not_hasPair_fresh {cap mk sz k v : Nat} :
    ¬ HasPair ⟨Array.mkArray cap Entry.zero, cap, mk, sz⟩ k v := by
  rintro ⟨i, _, hie, hk0⟩
  have hie' : tget (Array.mkArray cap Entry.zero) i = ⟨k, v⟩ := hie
  rw [tget_mkArray] at hie'
  have : (Entry.zero).key = k := by rw [hie']
  exact hk0 (by rw [← this]; rfl)

theorem rehash_fold {fuel : Nat} (es : List Entry) :
    ∀ (mm : FlatMap), Inv mm →
      (∀ e ∈ es, e.key ≠ 0 → ∀ v, ¬ HasPair mm e.key v) →
      es.Pairwise (fun a b => a.key ≠ 0 → b.key ≠ 0 → a.key ≠ b.key) →
      2 * (mm.size + es.length) ≤ mm.capacity →
      ∃ m', List.foldl
          (fun acc e =>
            match acc with
            | none => none
            | some mm => if e.key ≠ 0 then insertF (fuel + 1) mm e.key e.value
                else some mm)
          (some mm) es = some m' ∧
        Inv m' ∧ m'.capacity = mm.capacity ∧ m'.mask = mm.mask ∧
        (∀ k v, HasPair m' k v ↔ HasPair mm k v ∨ ((⟨k, v⟩ : Entry) ∈ es ∧ k ≠ 0)) := by
  induction es with
  | nil =>
    intro mm hInv _ _ _
    refine ⟨mm, rfl, hInv, rfl, rfl, ?_⟩
    intro k v
    simp
  | cons e rest ih =>
    intro mm hInv hpair hdk hload
    rw [List.foldl_cons]
    by_cases hek : e.key ≠ 0
    · have hng : mm.size * 2 < mm.capacity := by
        have : rest.length + 1 = (e :: rest).length := by simp
        omega
      obtain ⟨m1, hm1, hInv1, hcap1, hmask1, hpairs1, _, hsize1⟩ :=
        insert_no_grow hInv e.value hek hng fuel
      have hfind : mm.find e.key = none := by
        rw [find_eq_none_iff hInv]
        exact fun v => hpair e (List.mem_cons_self e rest) hek v
      have hsz1 : m1.size = mm.size + 1 := hsize1 hfind
      have hstep : (match (some mm : Option FlatMap) with
          | none => none
          | some mm => if e.key ≠ 0 then insertF (fuel + 1) mm e.key e.value
              else some mm) = some m1 := by
        simp only [if_pos hek]
        exact hm1
      rw [hstep]
      have hpair' : ∀ e' ∈ rest, e'.key ≠ 0 → ∀ v, ¬ HasPair m1 e'.key v := by
        intro e' hmem hek' v hp
        rcases (hpairs1 e'.key v).mp hp with ⟨hkk, _⟩ | ⟨_, hp'⟩
        · have := (List.pairwise_cons.mp hdk).1 e' hmem hek hek'
          exact this hkk.symm
        · exact hpair e' (List.mem_cons_of_mem e hmem) hek' v hp'
      have hdk' := (List.pairwise_cons.mp hdk).2
      have hload' : 2 * (m1.size + rest.length) ≤ m1.capacity := by
        rw [hsz1, hcap1]
        have : (e :: rest).length = rest.length + 1 := by simp
        omega
      obtain ⟨m', hm', hInv', hcap', hmask', hpairs'⟩ := ih m1 hInv1 hpair' hdk' hload'
      refine ⟨m', hm', hInv', by rw [hcap', hcap1], by rw [hmask', hmask1], ?_⟩
      intro k v
      rw [hpairs' k v]
      constructor
      · rintro (hp1 | ⟨hmem, hk0⟩)
        · rcases (hpairs1 k v).mp hp1 with ⟨hkk, hvv⟩ | ⟨_, hp⟩
          · refine Or.inr ⟨?_, by rw [hkk]; exact hek⟩
            subst hkk
            subst hvv
            have : e = ⟨e.key, e.value⟩ := rfl
            rw [← this]
            exact List.mem_cons_self e rest
          · exact Or.inl hp
        · exact Or.inr ⟨List.mem_cons_of_mem e hmem, hk0⟩
      · rintro (hp | ⟨hmem, hk0⟩)
        · refine Or.inl ((hpairs1 k v).mpr (Or.inr ⟨?_, hp⟩))
          intro hkk
          exact hpair e (List.mem_cons_self e rest) hek v (hkk ▸ hp)
        · rcases List.mem_cons.mp hmem with he | hmem'
          · refine Or.inl ((hpairs1 k v).mpr (Or.inl ?_))
            have h1 : e.key = k := by rw [← he]
            have h2 : e.value = v := by rw [← he]
            exact ⟨h1.symm, h2.symm⟩
          · exact Or.inr ⟨hmem', hk0⟩
    · push_neg at hek
      have hstep : (match (some mm : Option FlatMap) with
          | none => none
          | some mm => if e.key ≠ 0 then insertF (fuel + 1) mm e.key e.value
              else some mm) = some mm := by
        simp only [hek]
        simp
      rw [hstep]
      have hlen5 : (e :: rest).length = rest.length + 1 := by simp
      obtain ⟨m', hm', hInv', hcap', hmask', hpairs'⟩ := ih mm hInv
        (fun e' hmem => hpair e' (List.mem_cons_of_mem e hmem))
        (List.pairwise_cons.mp hdk).2
        (by omega)
      refine ⟨m', hm', hInv', hcap', hmask', ?_⟩
      intro k v
      rw [hpairs' k v]
      constructor
      · rintro (hp | ⟨hmem, hk0⟩)
        · exact Or.inl hp
        · exact Or.inr ⟨List.mem_cons_of_mem e hmem, hk0⟩
      · rintro (hp | ⟨hmem, hk0⟩)
        · exact Or.inl hp
        · rcases List.mem_cons.mp hmem with he | hmem'
          · exfalso
            apply hk0
            rw [← show e.key = k by rw [← he], hek]
          · exact Or.inr ⟨hmem', hk0⟩

theorem rehash_spec {m : FlatMap} (h : Inv m)
    (hcap16 : m.capacity * 2 < 2 ^ 16) (fuel : Nat) :
    ∃ m', rehashF (fuel + 2) m ((m.capacity * 2) % 2 ^ 16) = some m' ∧ Inv m' ∧
      m'.capacity = m.capacity * 2 ∧ m'.mask = m.capacity * 2 - 1 ∧
      m'.size = m.size ∧
      (∀ k v, HasPair m' k v ↔ HasPair m k v) := by
  have h16 : (2 : Nat) ^ 16 = 65536 := by norm_num
  have hnc : (m.capacity * 2) % 2 ^ 16 = m.capacity * 2 := Nat.mod_eq_of_lt hcap16
  have hmask16 : (m.capacity * 2 + 2 ^ 16 - 1) % 2 ^ 16 = m.capacity * 2 - 1 := by
    have hc4 := h.cap_pos
    rw [h16]
    rw [h16] at hcap16
    omega
  obtain ⟨j, hj2, hcap⟩ := h.kpow
  set start : FlatMap :=
    ⟨Array.mkArray (m.capacity * 2) Entry.zero, m.capacity * 2,
      m.capacity * 2 - 1, 0⟩ with hstart
  have hInv0 : Inv start := by
    refine @Inv_fresh' _ (j + 1) ?_ ?_
    · rw [hcap]
      ring
    · omega
  have hfold := @rehash_fold fuel m.table.toList start hInv0
    (fun e _ hek v hp => not_hasPair_fresh hp)
    (pairwise_keys_toList h)
    (by
      have hlen : m.table.toList.length = m.table.size := Array.length_toList
      rw [h.len] at hlen
      show 2 * (0 + m.table.toList.length) ≤ m.capacity * 2
      omega)
  obtain ⟨m', hm', hInv', hcap', hmask', hpairs'⟩ := hfold
  have hpairs : ∀ k v, HasPair m' k v ↔ HasPair m k v := by
    intro k v
    rw [hpairs' k v, hasPair_iff_mem_toList h.len]
    constructor
    · rintro (hp | hm)
      · exact absurd hp not_hasPair_fresh
      · exact hm
    · intro hm
      exact Or.inr hm
  refine ⟨m', ?_, hInv', by rw [hcap'], by rw [hmask'], ?_, hpairs⟩
  · rw [rehashF, hnc, hmask16]
    rw [Array.foldl_eq_foldl_toList]
    exact hm'
  · exact size_eq_of_hasPair_iff hInv' h hpairs

/-- In the growth branch, the rest of `insert`'s body coincides with a
non-growing `insert` on the rehashed table. -/
theorem insertF_grow_eq {m m1 : FlatMap} {k v : Nat} {fuel fuel' : Nat}
    (hg : m.size * 2 ≥ m.capacity)
    (hr : rehashF fuel m ((m.capacity * 2) % 2 ^ 16) = some m1)
    (hng1 : ¬ m1.size * 2 ≥ m1.capacity) :
    insertF (fuel + 1) m k v = insertF (fuel' + 1) m1 k v := by
  rw [insertF, if_pos hg, hr]
  conv_rhs => rw [insertF, if_neg hng1]

/-- Full specification of `FlatMap::insert` under the invariant. -/
theorem insert_spec {m : FlatMap} (h : Inv m) {k : Nat} (v : Nat)
    (hk : k ≠ 0)
    (hsafe : m.size * 2 ≥ m.capacity → m.capacity < 2 ^ 15) :
    ∃ m', insert m k v = some m' ∧ Inv m' ∧
      (∀ k' v', HasPair m' k' v' ↔
        (k' = k ∧ v' = v) ∨ (k' ≠ k ∧ HasPair m k' v')) ∧
      m'.capacity = (if m.size * 2 ≥ m.capacity then m.capacity * 2
        else m.capacity) ∧
      (m.size * 2 < m.capacity → m'.mask = m.mask ∧
        ((∃ w, m.find k = some w) → m'.size = m.size ∧
          ∃ i, i < m.capacity ∧ (tget m.table i).key = k ∧
            m'.table = tset m.table i ⟨k, v⟩) ∧
        (m.find k = none → m'.size = m.size + 1)) := by
  unfold insert
  by_cases hg : m.size * 2 ≥ m.capacity
  · have hcap16 : m.capacity * 2 < 2 ^ 16 := by
      have h15 : (2 : Nat) ^ 15 = 32768 := by norm_num
      have h16 : (2 : Nat) ^ 16 = 65536 := by norm_num
      have := hsafe hg
      omega
    obtain ⟨m1, hr, hInv1, hcap1, hmask1, hsize1, hpairs1⟩ :=
      rehash_spec h hcap16 0
    have hng1 : ¬ m1.size * 2 ≥ m1.capacity := by
      have := h.load
      have := h.cap_pos
      omega
    rw [show (3 : Nat) = 2 + 1 from rfl, @insertF_grow_eq _ _ _ _ _ 0 hg hr hng1]
    obtain ⟨m', hm', hInv', hcap', hmask', hpairs', _, _⟩ :=
      insert_no_grow hInv1 v hk (by omega) 0
    refine ⟨m', hm', hInv', ?_, ?_, ?_⟩
    · intro k' v'
      rw [hpairs' k' v']
      constructor
      · rintro (h1 | ⟨hne, hp⟩)
        · exact Or.inl h1
        · exact Or.inr ⟨hne, (hpairs1 k' v').mp hp⟩
      · rintro (h1 | ⟨hne, hp⟩)
        · exact Or.inl h1
        · exact Or.inr ⟨hne, (hpairs1 k' v').mpr hp⟩
    · rw [if_pos hg, hcap', hcap1]
    · intro hlt
      omega
  · push_neg at hg
    obtain ⟨m', hm', hInv', hcap', hmask', hpairs', hover, hnew⟩ :=
      insert_no_grow h v hk hg 2
    refine ⟨m', hm', hInv', hpairs', ?_, ?_⟩
    · rw [if_neg (by omega), hcap']
    · intro _
      exact ⟨hmask', hover, hnew⟩

/-- Below half the 16-bit boundary the growth call cannot truncate: if the
growth check fires at all, the capacity is at most twice the size. -/
theorem hsafe_of_size {m : FlatMap} (hsz : m.size < 2 ^ 14) :
    m.size * 2 ≥ m.capacity → m.capacity < 2 ^ 15 := by
  intro hg
  have h14 : (2 : Nat) ^ 14 = 16384 := by norm_num
  have h15 : (2 : Nat) ^ 15 = 32768 := by norm_num
  omega

end FlatMap

/-! ## Counting slots in a cyclic window -/

theorem cdist_add_mod {cap x d : Nat} (hx : x < cap) (hd : d < cap) :
    cdist cap x ((x + d) % cap) = d := by
  rcases Nat.lt_or_ge (x + d) cap with h1 | h1
  · rw [Nat.mod_eq_of_lt h1, cdist_closed hx (by omega)]
    split <;> omega
  · have h3 : x + d - cap < cap := by omega
    have h4 : x + d = (x + d - cap) + 1 * cap := by omega
    have h2 : (x + d) % cap = x + d - cap := by
      conv_lhs => rw [h4]
      rw [Nat.add_mul_mod_self_right, Nat.mod_eq_of_lt h3]
    rw [h2, cdist_closed hx (by omega)]
    split <;> omega

theorem cdist_add_self {cap x r : Nat} (hx : x < cap) (hr : r < cap) :
    (x + cdist cap x r) % cap = r := by
  rw [cdist_closed hx hr]
  split
  · have h1 : x + (r - x) = r := by omega
    rw [h1, Nat.mod_eq_of_lt hr]
  · have h1 : x + (r + cap - x) = r + 1 * cap := by omega
    rw [h1, Nat.add_mul_mod_self_right, Nat.mod_eq_of_lt hr]

/-- There are exactly `D` slots within cyclic distance `< D` of `x`. -/
theorem card_cdist_lt {cap x D : Nat} (hx : x < cap) (hD : D ≤ cap) :
    (((Finset.range cap).filter fun r => cdist cap x r < D)).card = D := by
  have hbij : (((Finset.range cap).filter fun r => cdist cap x r < D)).card
      = (Finset.range D).card := by
    apply Finset.card_bij' (fun r _ => cdist cap x r) (fun d _ => (x + d) % cap)
    · intro r hr
      simp only [Finset.mem_filter, Finset.mem_range] at hr
      simp only [Finset.mem_range]
      exact hr.2
    · intro d hd
      simp only [Finset.mem_range] at hd
      simp only [Finset.mem_filter, Finset.mem_range]
      constructor
      · exact Nat.mod_lt _ (by omega)
      · rw [cdist_add_mod hx (by omega)]
        exact hd
    · intro r hr
      simp only [Finset.mem_filter, Finset.mem_range] at hr
      exact cdist_add_self hx hr.1
    · intro d hd
      simp only [Finset.mem_range] at hd
      exact cdist_add_mod hx (by omega)
  rw [hbij, Finset.card_range]

namespace FlatMap

/-- Any window of slots that are all occupied has at most `size` slots. -/
theorem cdist_window_le_size {m : FlatMap} (h : Inv m) {x D : Nat}
    (hx : x < m.capacity) (hD : D ≤ m.capacity)
    (hsub : ∀ r, r < m.capacity → cdist m.capacity x r < D →
      (tget m.table r).key ≠ 0) : D ≤ m.size := by
  have hsubset : ((Finset.range m.capacity).filter
      fun r => cdist m.capacity x r < D) ⊆ m.occupied := by
    intro r hr
    simp only [Finset.mem_filter, Finset.mem_range] at hr
    exact mem_occupied.mpr ⟨hr.1, hsub r hr.1 hr.2⟩
  have := Finset.card_le_card hsubset
  rw [card_cdist_lt hx hD] at this
  rw [h.count]
  exact this

end FlatMap

/-! ## More cyclic-distance geometry -/

/-- Express a distance between two points through their coordinates as seen
from a third base point. -/
theorem cdist_coord {cap i0 x y : Nat} (hi0 : i0 < cap) (hx : x < cap)
    (hy : y < cap) :
    cdist cap x y = if cdist cap i0 x ≤ cdist cap i0 y
      then cdist cap i0 y - cdist cap i0 x
      else cap - cdist cap i0 x + cdist cap i0 y := by
  rw [cdist_closed hx hy, cdist_closed hi0 hx, cdist_closed hi0 hy]
  split_ifs <;> omega

theorem cdist_triangle_le {cap a b c : Nat} (ha : a < cap) (hb : b < cap)
    (hc : c < cap) :
    cdist cap a c ≤ cdist cap a b + cdist cap b c := by
  rw [cdist_closed ha hc, cdist_closed ha hb, cdist_closed hb hc]
  split_ifs <;> omega

/-- Stepping the scan index of the erase loop forward, while the scan has
not wrapped all the way around. -/
theorem rho_step {cap i0 j : Nat} (hi0 : i0 < cap) (hj : j < cap)
    (hlt : cdist cap i0 j < cap - 1) :
    cdist cap i0 ((j + 1) % cap) = cdist cap i0 j + 1 ∧ (j + 1) % cap < cap := by
  have hcap : 0 < cap := by omega
  have hne : (j + 1) % cap ≠ i0 := by
    intro he
    rcases Nat.lt_or_ge (j + 1) cap with h1 | h1
    · rw [Nat.mod_eq_of_lt h1] at he
      rw [← he] at hlt
      rw [cdist_closed (show j + 1 < cap by omega) hj] at hlt
      split_ifs at hlt <;> omega
    · have hje : j + 1 = cap := by omega
      have h0 : (j + 1) % cap = 0 := by simp [hje]
      rw [h0] at he
      rw [← he] at hlt
      rw [cdist_closed hcap hj] at hlt
      split_ifs at hlt <;> omega
  exact ⟨cdist_succ hi0 hj hne, Nat.mod_lt _ hcap⟩

namespace FlatMap

/-! ## The backward-shift loop of erase -/

/-- Loop invariant of the backward-shift loop of `FlatMap::erase`.
The original table of `m` still holds the erased key `k` at slot `i0`;
the working table `t` has current gap `g` and scan position `j`.
All distances are measured with `cdist m.capacity`. -/
structure ShiftInv (m : FlatMap) (k i0 : Nat) (t : Array Entry) (g j : Nat) :
    Prop where
  base : Inv m
  hk : k ≠ 0
  hi0 : i0 < m.capacity
  hkey0 : (tget m.table i0).key = k
  hg : g < m.capacity
  hj : j < m.capacity
  hlen : t.size = m.capacity
  hord : cdist m.capacity i0 g < cdist m.capacity i0 j
  hocc : ∀ p, p < m.capacity →
    ((tget t p).key = 0 ↔ (tget m.table p).key = 0)
  hframe : ∀ p, p < m.capacity → cdist m.capacity i0 j ≤ cdist m.capacity i0 p →
    tget t p = tget m.table p
  hwin : ∀ p, p < m.capacity → cdist m.capacity i0 p < cdist m.capacity i0 j →
    (tget m.table p).key ≠ 0
  hprov : ∀ p, p < m.capacity → cdist m.capacity i0 p < cdist m.capacity i0 j →
    p ≠ g → ∃ q, q < m.capacity ∧ cdist m.capacity i0 q < cdist m.capacity i0 j ∧
      tget t p = tget m.table q ∧
      cdist m.capacity (m.hash (tget t p).key) p ≤
        cdist m.capacity (m.hash (tget t p).key) q
  hsurj : ∀ q, q < m.capacity → cdist m.capacity i0 q < cdist m.capacity i0 j →
    (tget m.table q).key ≠ k →
    ∃ p, p < m.capacity ∧ cdist m.capacity i0 p < cdist m.capacity i0 j ∧
      p ≠ g ∧ tget t p = tget m.table q
  hnok : ∀ p, p < m.capacity → p ≠ g → (tget t p).key ≠ k
  hnodup : ∀ p q, p < m.capacity → q < m.capacity → p ≠ g → q ≠ g →
    (tget t p).key ≠ 0 → (tget t p).key = (tget t q).key → p = q
  havoid : ∀ p, p < m.capacity → cdist m.capacity i0 p < cdist m.capacity i0 j →
    p ≠ g → cdist m.capacity (m.hash (tget t p).key) p <
      cdist m.capacity (m.hash (tget t p).key) g

theorem ShiftInv.initial {m : FlatMap} {k i0 : Nat} (h : Inv m) (hk : k ≠ 0)
    (hi0 : i0 < m.capacity) (hkey : (tget m.table i0).key = k) :
    ShiftInv m k i0 m.table i0 ((i0 + 1) % m.capacity) := by
  have hcap4 := h.cap_ge_four
  have hstep := rho_step hi0 hi0 (by rw [cdist_self hi0]; omega)
  rw [cdist_self hi0] at hstep
  have hj1 : cdist m.capacity i0 ((i0 + 1) % m.capacity) = 1 := hstep.1
  have hj : (i0 + 1) % m.capacity < m.capacity := hstep.2
  have hwin0 : ∀ p, p < m.capacity →
      cdist m.capacity i0 p < cdist m.capacity i0 ((i0 + 1) % m.capacity) →
      p = i0 := by
    intro p hp hlt
    rw [hj1] at hlt
    have : cdist m.capacity i0 p = 0 := by omega
    exact ((cdist_eq_zero_iff hi0 hp).mp this).symm
  constructor
  · exact h
  · exact hk
  · exact hi0
  · exact hkey
  · exact hi0
  · exact hj
  · exact h.len
  · rw [cdist_self hi0, hj1]
    omega
  · intro p _
    exact Iff.rfl
  · intro p _ _
    rfl
  · intro p hp hlt
    rw [hwin0 p hp hlt, hkey]
    exact hk
  · intro p hp hlt hpne
    exact absurd (hwin0 p hp hlt) hpne
  · intro q hq hlt hqk
    exact absurd (by rw [hwin0 q hq hlt, hkey]) hqk
  · intro p hp hpne hpk
    exact hpne (h.nodup p i0 hp hi0 (by rw [hpk]; exact hk) (by rw [hpk, hkey]))
  · intro p q hp hq _ _ hnz heq
    exact h.nodup p q hp hq hnz heq
  · intro p hp hlt hpne
    exact absurd (hwin0 p hp hlt) hpne

/-- The scan position never reaches all the way around: otherwise all slots
would be occupied, contradicting the load bound. -/
theorem ShiftInv.rho_j_lt {m : FlatMap} {k i0 : Nat} {t : Array Entry}
    {g j : Nat} (hs : ShiftInv m k i0 t g j)
    (hjkey : (tget t j).key ≠ 0) :
    cdist m.capacity i0 j < m.capacity - 1 := by
  have hj := hs.hj
  have hi0 := hs.hi0
  by_contra hge
  have hjj : cdist m.capacity i0 j = m.capacity - 1 := by
    have := cdist_lt hi0 hj
    omega
  have hallocc : ∀ p, p < m.capacity → (tget m.table p).key ≠ 0 := by
    intro p hp
    by_cases hpj : p = j
    · subst hpj
      intro h0
      exact hjkey ((hs.hocc p hp).mpr h0)
    · apply hs.hwin p hp
      rw [hjj]
      have h1 : cdist m.capacity i0 p ≠ m.capacity - 1 := by
        intro he
        exact hpj (cdist_inj hi0 hp hj (by rw [he, hjj]))
      have := cdist_lt hi0 hp
      omega
  obtain ⟨e, he, hekey⟩ := hs.base.exists_empty_slot
  exact hallocc e he hekey

/-- At most `size` slots of the window have been scanned. -/
theorem ShiftInv.rho_j_le_size {m : FlatMap} {k i0 : Nat} {t : Array Entry}
    {g j : Nat} (hs : ShiftInv m k i0 t g j) :
    cdist m.capacity i0 j ≤ m.size := by
  apply cdist_window_le_size hs.base hs.hi0
    (Nat.le_of_lt (cdist_lt hs.hi0 hs.hj))
  exact hs.hwin

end FlatMap

namespace FlatMap

/-- The probe path of any stored entry has length at most `size`. -/
theorem Inv.path_le_size {m : FlatMap} (h : Inv m) {q : Nat}
    (hq : q < m.capacity) (hqnz : (tget m.table q).key ≠ 0) :
    cdist m.capacity (m.hash (tget m.table q).key) q ≤ m.size := by
  apply cdist_window_le_size h (h.hash_lt _)
    (Nat.le_of_lt (cdist_lt (h.hash_lt _) hq))
  intro r hr hlt
  exact h.probe q hq hqnz r hr hlt

theorem ShiftInv.g_ne_j {m : FlatMap} {k i0 : Nat} {t : Array Entry}
    {g j : Nat} (hs : ShiftInv m k i0 t g j) : g ≠ j := by
  intro he
  have := hs.hord
  rw [he] at this
  omega

theorem ShiftInv.j_ne_i0 {m : FlatMap} {k i0 : Nat} {t : Array Entry}
    {g j : Nat} (hs : ShiftInv m k i0 t g j) : j ≠ i0 := by
  intro he
  have := hs.hord
  rw [he, cdist_self hs.hi0] at this
  omega

/-- Splitting membership in the extended window. -/
theorem window_succ_split {cap i0 j p : Nat} (hi0 : i0 < cap) (hj : j < cap)
    (hp : p < cap)
    (hlt : cdist cap i0 p < cdist cap i0 j + 1) :
    cdist cap i0 p < cdist cap i0 j ∨ p = j := by
  rcases Nat.lt_or_ge (cdist cap i0 p) (cdist cap i0 j) with h | h
  · exact Or.inl h
  · right
    exact cdist_inj hi0 hp hj (by omega)

/-- Preservation of the loop invariant when the scanned entry is left in
place (its home lies strictly behind the gap on the probe circle). -/
theorem ShiftInv.step_stay {m : FlatMap} {k i0 : Nat} {t : Array Entry}
    {g j : Nat} (hs : ShiftInv m k i0 t g j)
    (hjkey : (tget t j).key ≠ 0)
    (hcond : ¬ cdist m.capacity (m.hash (tget t j).key) g <
        cdist m.capacity (m.hash (tget t j).key) j) :
    ShiftInv m k i0 t g ((j + 1) % m.capacity) := by
  obtain ⟨hrho, hj'⟩ := rho_step hs.hi0 hs.hj (hs.rho_j_lt hjkey)
  have htj : tget t j = tget m.table j := hs.hframe j hs.hj le_rfl
  have hT0j : (tget m.table j).key ≠ 0 := by
    intro h0
    exact hjkey ((hs.hocc j hs.hj).mpr h0)
  constructor
  · exact hs.base
  · exact hs.hk
  · exact hs.hi0
  · exact hs.hkey0
  · exact hs.hg
  · exact hj'
  · exact hs.hlen
  · rw [hrho]
    have := hs.hord
    omega
  · exact hs.hocc
  · intro p hp hge
    rw [hrho] at hge
    exact hs.hframe p hp (by omega)
  · intro p hp hlt
    rw [hrho] at hlt
    rcases window_succ_split hs.hi0 hs.hj hp hlt with h | h
    · exact hs.hwin p hp h
    · rw [h]
      exact hT0j
  · intro p hp hlt hpg
    rw [hrho] at hlt
    rcases window_succ_split hs.hi0 hs.hj hp hlt with h | h
    · obtain ⟨q, hq, hqlt, hqe, hqd⟩ := hs.hprov p hp h hpg
      exact ⟨q, hq, by rw [hrho]; omega, hqe, hqd⟩
    · subst h
      exact ⟨p, hp, by rw [hrho]; omega, htj, le_rfl⟩
  · intro q hq hlt hqk
    rw [hrho] at hlt
    rcases window_succ_split hs.hi0 hs.hj hq hlt with h | h
    · obtain ⟨p, hp, hplt, hpg, hpe⟩ := hs.hsurj q hq h hqk
      exact ⟨p, hp, by rw [hrho]; omega, hpg, hpe⟩
    · subst h
      exact ⟨q, hq, by rw [hrho]; have := hs.hord; omega,
        fun he => hs.g_ne_j he.symm, htj⟩
  · exact hs.hnok
  · exact hs.hnodup
  · intro p hp hlt hpg
    rw [hrho] at hlt
    rcases window_succ_split hs.hi0 hs.hj hp hlt with h | h
    · exact hs.havoid p hp h hpg
    · subst h
      rcases Nat.lt_or_ge (cdist m.capacity (m.hash (tget t p).key) p)
        (cdist m.capacity (m.hash (tget t p).key) g) with h2 | h2
      · exact h2
      · exfalso
        apply hcond
        rcases Nat.eq_or_lt_of_le h2 with h3 | h3
        · exact absurd (cdist_inj (hs.base.hash_lt _) hs.hg hp h3) hs.g_ne_j
        · exact h3

/-- Preservation of the loop invariant when the scanned entry is moved back
into the gap (which then moves up to the scanned slot). -/
theorem ShiftInv.step_move {m : FlatMap} {k i0 : Nat} {t : Array Entry}
    {g j : Nat} (hs : ShiftInv m k i0 t g j)
    (hjkey : (tget t j).key ≠ 0)
    (hcond : cdist m.capacity (m.hash (tget t j).key) g <
        cdist m.capacity (m.hash (tget t j).key) j) :
    ShiftInv m k i0 (tset t g (tget t j)) j ((j + 1) % m.capacity) := by
  obtain ⟨hrho, hj'⟩ := rho_step hs.hi0 hs.hj (hs.rho_j_lt hjkey)
  have htj : tget t j = tget m.table j := hs.hframe j hs.hj le_rfl
  have hT0j : (tget m.table j).key ≠ 0 := by
    intro h0
    exact hjkey ((hs.hocc j hs.hj).mpr h0)
  have hglen : g < t.size := by rw [hs.hlen]; exact hs.hg
  have htg : tget (tset t g (tget t j)) g = tget t j := tget_tset_eq hglen _
  have htne : ∀ p, p ≠ g → tget (tset t g (tget t j)) p = tget t p := by
    intro p hpg
    exact tget_tset_ne t (fun he => hpg he.symm) _
  have hgne : g ≠ j := hs.g_ne_j
  have hkT0j : (tget m.table j).key ≠ k := by
    intro hkk
    exact hs.j_ne_i0 (hs.base.nodup j i0 hs.hj hs.hi0 hT0j (by rw [hkk, hs.hkey0]))
  constructor
  · exact hs.base
  · exact hs.hk
  · exact hs.hi0
  · exact hs.hkey0
  · exact hs.hj
  · exact hj'
  · rw [size_tset]; exact hs.hlen
  · rw [hrho]
    omega
  · intro p hp
    by_cases hpg : p = g
    · subst hpg
      rw [htg]
      constructor
      · intro h0
        exact absurd h0 hjkey
      · intro h0
        exact absurd h0 (hs.hwin p hp hs.hord)
    · rw [htne p hpg]
      exact hs.hocc p hp
  · intro p hp hge
    rw [hrho] at hge
    have hpg : p ≠ g := by
      intro he
      subst he
      have := hs.hord
      omega
    rw [htne p hpg]
    exact hs.hframe p hp (by omega)
  · intro p hp hlt
    rw [hrho] at hlt
    rcases window_succ_split hs.hi0 hs.hj hp hlt with h | h
    · exact hs.hwin p hp h
    · rw [h]
      exact hT0j
  · intro p hp hlt hpj
    rw [hrho] at hlt
    by_cases hpg : p = g
    · subst hpg
      refine ⟨j, hs.hj, by rw [hrho]; omega, by rw [htg, htj], ?_⟩
      rw [htg]
      exact Nat.le_of_lt hcond
    · rcases window_succ_split hs.hi0 hs.hj hp hlt with h | h
      · obtain ⟨q, hq, hqlt, hqe, hqd⟩ := hs.hprov p hp h hpg
        rw [htne p hpg]
        exact ⟨q, hq, by rw [hrho]; omega, hqe, hqd⟩
      · exact absurd h hpj
  · intro q hq hlt hqk
    rw [hrho] at hlt
    rcases window_succ_split hs.hi0 hs.hj hq hlt with h | h
    · obtain ⟨p, hp, hplt, hpg, hpe⟩ := hs.hsurj q hq h hqk
      refine ⟨p, hp, by rw [hrho]; omega, ?_, by rw [htne p hpg]; exact hpe⟩
      intro he
      subst he
      omega
    · subst h
      refine ⟨g, hs.hg, by rw [hrho]; have := hs.hord; omega, hgne, ?_⟩
      rw [htg, htj]
  · intro p hp hpj
    by_cases hpg : p = g
    · subst hpg
      rw [htg, htj]
      exact hkT0j
    · rw [htne p hpg]
      exact hs.hnok p hp hpg
  · intro p q hp hq hpj hqj hnz heq
    by_cases hpg : p = g <;> by_cases hqg : q = g
    · rw [hpg, hqg]
    · exfalso
      subst hpg
      rw [htne q hqg] at heq
      rw [htg] at hnz heq
      rw [htj] at hnz heq
      rcases Nat.lt_or_ge (cdist m.capacity i0 q) (cdist m.capacity i0 j)
        with hqw | hqw
      · obtain ⟨σ, hσ, hσlt, hσe, _⟩ := hs.hprov q hq hqw hqg
        rw [hσe] at heq
        have hjσ : j = σ := hs.base.nodup j σ hs.hj hσ hnz heq
        rw [← hjσ] at hσlt
        omega
      · have hqframe : tget t q = tget m.table q := hs.hframe q hq hqw
        rw [hqframe] at heq
        exact hqj (hs.base.nodup j q hs.hj hq hnz heq).symm
    · exfalso
      subst hqg
      rw [htne p hpg] at hnz heq
      rw [htg] at heq
      rw [htj] at heq
      rcases Nat.lt_or_ge (cdist m.capacity i0 p) (cdist m.capacity i0 j)
        with hpw | hpw
      · obtain ⟨σ, hσ, hσlt, hσe, _⟩ := hs.hprov p hp hpw hpg
        rw [hσe] at heq hnz
        have hσj : σ = j := hs.base.nodup σ j hσ hs.hj hnz heq
        rw [hσj] at hσlt
        omega
      · have hpframe : tget t p = tget m.table p := hs.hframe p hp hpw
        rw [hpframe] at heq hnz
        exact hpj (hs.base.nodup p j hp hs.hj hnz heq)
    · rw [htne p hpg] at hnz heq
      rw [htne q hqg] at heq
      exact hs.hnodup p q hp hq hpg hqg hnz heq
  · intro p hp hlt hpj
    rw [hrho] at hlt
    by_cases hpg : p = g
    · subst hpg
      rw [htg]
      exact hcond
    · rcases window_succ_split hs.hi0 hs.hj hp hlt with h | h
      · rw [htne p hpg]
        by_contra hge
        push_neg at hge
        obtain ⟨q, hq, hqlt, hqe, hqd⟩ := hs.hprov p hp h hpg
        have hpnz : (tget t p).key ≠ 0 := by
          intro h0
          exact hs.hwin p hp h ((hs.hocc p hp).mp h0)
        have hqnz : (tget m.table q).key ≠ 0 := by
          rw [← hqe]
          exact hpnz
        have hη := hs.base.hash_lt (tget t p).key
        have hpath : cdist m.capacity (m.hash (tget t p).key) q ≤ m.size := by
          have := hs.base.path_le_size hq hqnz
          rw [← hqe] at this
          exact this
        have hwinb : cdist m.capacity i0 j ≤ m.size := hs.rho_j_le_size
        have hload := hs.base.load
        have hdec : cdist m.capacity (m.hash (tget t p).key) p =
            cdist m.capacity (m.hash (tget t p).key) j +
            cdist m.capacity j p :=
          cdist_decomp hη hs.hj hp hge
        have hjp : cdist m.capacity j p =
            m.capacity - cdist m.capacity i0 j + cdist m.capacity i0 p := by
          rw [cdist_coord hs.hi0 hs.hj hp, if_neg (by omega)]
        have hA : cdist m.capacity (m.hash (tget t p).key) p =
            cdist m.capacity (m.hash (tget t p).key) q := by
          have hcapj := cdist_lt hs.hi0 hs.hj
          omega
        have hpq : p = q := cdist_inj hη hp hq hA
        subst hpq
        have hrho0 : cdist m.capacity i0 p = 0 := by
          have hcapj := cdist_lt hs.hi0 hs.hj
          omega
        have hpi0 : i0 = p := (cdist_eq_zero_iff hs.hi0 hp).mp hrho0
        apply hs.hnok p hp hpg
        rw [hqe, ← hpi0, hs.hkey0]
      · exact absurd h hpj

end FlatMap

namespace FlatMap

/-- What holds of the working table when the backward-shift loop of `erase`
terminates (after zeroing the final gap `g`): the table is the original one
with the unique slot of the erased key removed and all probe paths intact. -/
structure ShiftDoneAt (m : FlatMap) (k : Nat) (t' : Array Entry) (g : Nat) :
    Prop where
  hlen : t'.size = m.capacity
  hg : g < m.capacity
  hgocc : (tget m.table g).key ≠ 0
  hocc : ∀ p, p < m.capacity →
    ((tget t' p).key = 0 ↔ (p = g ∨ (tget m.table p).key = 0))
  hnok : ∀ p, p < m.capacity → (tget t' p).key ≠ k
  hnodup : ∀ p q, p < m.capacity → q < m.capacity → (tget t' p).key ≠ 0 →
    (tget t' p).key = (tget t' q).key → p = q
  hprobe : ∀ p, p < m.capacity → (tget t' p).key ≠ 0 → ∀ r, r < m.capacity →
    cdist m.capacity (m.hash (tget t' p).key) r <
      cdist m.capacity (m.hash (tget t' p).key) p →
    (tget t' r).key ≠ 0
  hpairs : ∀ k' v', k' ≠ 0 →
    ((∃ p, p < m.capacity ∧ tget t' p = ⟨k', v'⟩) ↔
      (k' ≠ k ∧ ∃ q, q < m.capacity ∧ tget m.table q = ⟨k', v'⟩))

theorem ShiftInv.done {m : FlatMap} {k i0 : Nat} {t : Array Entry}
    {g j : Nat} (hs : ShiftInv m k i0 t g j)
    (hjkey : (tget t j).key = 0) :
    ShiftDoneAt m k (tset t g Entry.zero) g := by
  have hglen : g < t.size := by rw [hs.hlen]; exact hs.hg
  have htg : tget (tset t g Entry.zero) g = Entry.zero := tget_tset_eq hglen _
  have htne : ∀ p, p ≠ g → tget (tset t g Entry.zero) p = tget t p := by
    intro p hpg
    exact tget_tset_ne t (fun he => hpg he.symm) _
  have hT0g : (tget m.table g).key ≠ 0 := hs.hwin g hs.hg hs.hord
  have hT0j0 : (tget m.table j).key = 0 := (hs.hocc j hs.hj).mp hjkey
  have hzkey : (Entry.zero).key = 0 := rfl
  constructor
  · rw [size_tset]; exact hs.hlen
  · exact hs.hg
  · exact hT0g
  · intro p hp
    by_cases hpg : p = g
    · subst hpg
      rw [htg]
      simp [hzkey]
    · rw [htne p hpg]
      rw [hs.hocc p hp]
      constructor
      · exact Or.inr
      · rintro (he | h0)
        · exact absurd he hpg
        · exact h0
  · intro p hp
    by_cases hpg : p = g
    · subst hpg
      rw [htg, hzkey]
      exact fun he => hs.hk he.symm
    · rw [htne p hpg]
      exact hs.hnok p hp hpg
  · intro p q hp hq hnz heq
    have hpg : p ≠ g := by
      intro he
      subst he
      rw [htg, hzkey] at hnz
      exact hnz rfl
    have hqg : q ≠ g := by
      intro he
      subst he
      rw [htne p hpg] at hnz heq
      rw [htg, hzkey] at heq
      exact hnz heq
    rw [htne p hpg] at hnz heq
    rw [htne q hqg] at heq
    exact hs.hnodup p q hp hq hpg hqg hnz heq
  · intro p hp hnz r hr hlt
    have hpg : p ≠ g := by
      intro he
      subst he
      rw [htg, hzkey] at hnz
      exact hnz rfl
    rw [htne p hpg] at hnz hlt
    have hpnzt : (tget m.table p).key ≠ 0 := by
      intro h0
      exact hnz ((hs.hocc p hp).mpr h0)
    rcases Nat.lt_or_ge (cdist m.capacity i0 p) (cdist m.capacity i0 j)
      with hwin | hout
    · -- window entry: its path avoids the gap by `havoid`
      have hav := hs.havoid p hp hwin hpg
      have hrg : r ≠ g := by
        intro he
        subst he
        omega
      rw [htne r hrg]
      obtain ⟨q, hq, hqlt, hqe, hqd⟩ := hs.hprov p hp hwin hpg
      have hqnz : (tget m.table q).key ≠ 0 := by
        rw [← hqe]
        exact hnz
      have hT0r : (tget m.table r).key ≠ 0 := by
        have := hs.base.probe q hq hqnz r hr
        rw [← hqe] at this
        exact this (by omega)
      intro h0
      exact hT0r ((hs.hocc r hr).mp h0)
    · -- untouched entry beyond the scan
      have hpj : p ≠ j := by
        intro he
        subst he
        exact hnz hjkey
      have hframe := hs.hframe p hp hout
      rw [hframe] at hnz hlt
      have hT0r : (tget m.table r).key ≠ 0 :=
        hs.base.probe p hp hnz r hr hlt
      have hrg : r ≠ g := by
        intro he
        rw [he] at hlt
        -- then the empty scan slot j would lie on p's occupied path
        have hordf := hs.hord
        have hη := hs.base.hash_lt (tget m.table p).key
        have hdec : cdist m.capacity (m.hash (tget m.table p).key) p =
            cdist m.capacity (m.hash (tget m.table p).key) g +
            cdist m.capacity g p :=
          cdist_decomp hη hs.hg hp (Nat.le_of_lt hlt)
        have hρp : cdist m.capacity i0 j < cdist m.capacity i0 p := by
          rcases Nat.eq_or_lt_of_le hout with he2 | he2
          · exact absurd (cdist_inj hs.hi0 hs.hj hp he2) hpj.symm
          · exact he2
        have hgj : cdist m.capacity g j =
            cdist m.capacity i0 j - cdist m.capacity i0 g := by
          rw [cdist_coord hs.hi0 hs.hg hs.hj, if_pos (Nat.le_of_lt hs.hord)]
        have hgp : cdist m.capacity g p =
            cdist m.capacity i0 p - cdist m.capacity i0 g := by
          rw [cdist_coord hs.hi0 hs.hg hp, if_pos (by omega)]
        have htri := cdist_triangle_le hη hs.hg hs.hj
        have hT0jocc : (tget m.table j).key ≠ 0 := by
          apply hs.base.probe p hp hnz j hs.hj
          have := hs.hord
          omega
        exact hT0jocc hT0j0
      rw [htne r hrg]
      intro h0
      exact hT0r ((hs.hocc r hr).mp h0)
  · intro k' v' hk'
    constructor
    · rintro ⟨p, hp, hpe⟩
      have hpg : p ≠ g := by
        intro he
        subst he
        rw [htg] at hpe
        apply hk'
        rw [show (0 : Nat) = (Entry.zero).key from rfl, hpe]
      rw [htne p hpg] at hpe
      have hpk : (tget t p).key = k' := by rw [hpe]
      have hnz : (tget t p).key ≠ 0 := by rw [hpk]; exact hk'
      refine ⟨fun hkk => hs.hnok p hp hpg (by rw [hpk, hkk]), ?_⟩
      rcases Nat.lt_or_ge (cdist m.capacity i0 p) (cdist m.capacity i0 j)
        with hwin | hout
      · obtain ⟨q, hq, _, hqe, _⟩ := hs.hprov p hp hwin hpg
        exact ⟨q, hq, by rw [← hqe]; exact hpe⟩
      · exact ⟨p, hp, by rw [← hs.hframe p hp hout]; exact hpe⟩
    · rintro ⟨hk'k, q, hq, hqe⟩
      have hqkey : (tget m.table q).key = k' := by rw [hqe]
      rcases Nat.lt_or_ge (cdist m.capacity i0 q) (cdist m.capacity i0 j)
        with hwin | hout
      · obtain ⟨p, hp, _, hpg, hpe⟩ := hs.hsurj q hq hwin
          (by rw [hqkey]; exact hk'k)
        refine ⟨p, hp, ?_⟩
        rw [htne p hpg, hpe]
        exact hqe
      · have hqj : q ≠ j := by
          intro he
          subst he
          rw [hT0j0] at hqkey
          exact hk' hqkey.symm
        have hqg : q ≠ g := by
          intro he
          subst he
          have := hs.hord
          omega
        refine ⟨q, hq, ?_⟩
        rw [htne q hqg, hs.hframe q hq hout]
        exact hqe

/-- The backward-shift loop terminates (given fuel past the first empty
slot) and establishes the removal postcondition. -/
theorem eraseShift_spec {m : FlatMap} {k i0 : Nat} :
    ∀ (fuel : Nat) (t : Array Entry) (g j : Nat), ShiftInv m k i0 t g j →
      m.capacity - cdist m.capacity i0 j < fuel →
      ∃ t', eraseShift m.mask fuel t g j = some t' ∧
        ∃ g', ShiftDoneAt m k t' g' := by
  intro fuel
  induction fuel with
  | zero =>
    intro t g j hs hf
    exfalso
    have := cdist_lt hs.hi0 hs.hj
    omega
  | succ f ih =>
    intro t g j hs hf
    simp only [eraseShift]
    by_cases hjkey : (tget t j).key = 0
    · rw [if_pos hjkey]
      exact ⟨_, rfl, g, hs.done hjkey⟩
    · rw [if_neg hjkey]
      have hhome : ((tget t j).key * goldenMul) % 2 ^ 64 &&& m.mask
          = m.hash (tget t j).key := rfl
      have hm1 : m.mask + 1 = m.capacity := hs.base.mask_succ
      have hstep : (j + 1) &&& m.mask = (j + 1) % m.capacity :=
        hs.base.and_mask _
      rw [hhome, hm1, hstep]
      obtain ⟨hrho, hj'⟩ := rho_step hs.hi0 hs.hj (hs.rho_j_lt hjkey)
      have hjcap := cdist_lt hs.hi0 hs.hj
      by_cases hcond2 : cdist m.capacity (m.hash (tget t j).key) g <
          cdist m.capacity (m.hash (tget t j).key) j
      · rw [if_pos hcond2]
        exact ih _ _ _ (hs.step_move hjkey hcond2) (by rw [hrho]; omega)
      · rw [if_neg hcond2]
        exact ih _ _ _ (hs.step_stay hjkey hcond2) (by rw [hrho]; omega)

end FlatMap

namespace FlatMap

/-- The outer loop of `erase` follows the same probe sequence as `find`. -/
theorem eraseOuter_of_probe {m : FlatMap} {k : Nat} :
    ∀ (fuel i j : Nat), probeLoop m.table m.mask k fuel i = some j →
      eraseOuter m k fuel i =
        (if (tget m.table j).key = 0 then some m
         else match eraseShift m.mask m.capacity m.table j
            ((j + 1) &&& m.mask) with
          | some t => some { m with table := t, size := m.size - 1 }
          | none => none) := by
  intro fuel
  induction fuel with
  | zero =>
    intro i j h
    simp [probeLoop] at h
  | succ f ih =>
    intro i j h
    simp only [probeLoop] at h
    simp only [eraseOuter]
    by_cases hcont : (tget m.table i).key ≠ 0 ∧ (tget m.table i).key ≠ k
    · rw [if_pos hcont] at h
      rw [if_neg hcont.1, if_neg hcont.2]
      exact ih _ _ h
    · rw [if_neg hcont] at h
      have hij : i = j := by
        cases h
        rfl
      subst hij
      by_cases h0 : (tget m.table i).key = 0
      · rw [if_pos h0, if_pos h0]
      · have hk2 : (tget m.table i).key = k := by tauto
        rw [if_neg h0, if_pos hk2, if_neg h0]

/-- Full specification of `FlatMap::erase` under the invariant. -/
theorem erase_spec {m : FlatMap} (h : Inv m) (k : Nat) :
    ∃ m', erase m k = some m' ∧ Inv m' ∧
      m'.capacity = m.capacity ∧ m'.mask = m.mask ∧
      (∀ k' v', HasPair m' k' v' ↔ (k' ≠ k ∧ HasPair m k' v')) ∧
      ((∃ v, HasPair m k v) → m'.size = m.size - 1) ∧
      ((∀ v, ¬ HasPair m k v) → m' = m) := by
  obtain ⟨j, hpl⟩ := h.probe_total k
  obtain ⟨hj, hstop, hmin⟩ := probeLoop_some_inv h.mask_succ h.pow_exists
    m.capacity _ j (h.hash_lt k) hpl
  unfold erase
  rw [eraseOuter_of_probe m.capacity (m.hash k) j hpl]
  by_cases h0 : (tget m.table j).key = 0
  · rw [if_pos h0]
    have hno : ∀ v, ¬ HasPair m k v := by
      intro v hp
      have hfind := find_some_of_hasPair h hp
      rw [find_eq_probe hpl, if_neg ?_] at hfind
      · cases hfind
      · rintro ⟨_, hne⟩
        exact hne h0
    refine ⟨m, rfl, h, rfl, rfl, ?_, ?_, fun _ => rfl⟩
    · intro k' v'
      constructor
      · intro hp
        refine ⟨?_, hp⟩
        intro he
        subst he
        exact hno v' hp
      · exact fun hp => hp.2
    · rintro ⟨v, hv⟩
      exact absurd hv (hno v)
  · rw [if_neg h0]
    have hkk : (tget m.table j).key = k := by
      unfold probeStop at hstop
      tauto
    have hk0 : k ≠ 0 := by
      rw [← hkk]
      exact h0
    have hs0 := ShiftInv.initial h hk0 hj hkk
    have hone : cdist m.capacity j ((j + 1) % m.capacity) = 1 := by
      have := rho_step hj hj (by
        rw [cdist_self hj]
        have := h.cap_ge_four
        omega)
      rw [cdist_self hj] at this
      exact this.1
    rw [h.and_mask (j + 1)]
    obtain ⟨t', hts, g', hdone⟩ := eraseShift_spec m.capacity m.table j
      ((j + 1) % m.capacity) hs0
      (by
        rw [hone]
        have := h.cap_ge_four
        omega)
    rw [hts]
    have hsize_pos : 1 ≤ m.size := by
      rw [h.count]
      have : g' ∈ m.occupied := mem_occupied.mpr ⟨hdone.hg, hdone.hgocc⟩
      have := Finset.card_pos.mpr ⟨g', this⟩
      omega
    have hInv' : Inv { m with table := t', size := m.size - 1 } := by
      constructor
      · exact h.kpow
      · exact hdone.hlen
      · exact h.mask_eq
      · have := h.load
        show 2 * (m.size - 1) ≤ m.capacity
        omega
      · show m.size - 1 = Finset.card (Finset.filter _ _)
        have hocceq : (Finset.range m.capacity).filter
            (fun i => (tget t' i).key ≠ 0) = m.occupied.erase g' := by
          ext p
          simp only [Finset.mem_filter, Finset.mem_range, Finset.mem_erase,
            mem_occupied]
          constructor
          · rintro ⟨hp, hnz⟩
            have := hdone.hocc p hp
            constructor
            · intro he
              exact hnz (by rw [this]; exact Or.inl he)
            · refine ⟨hp, ?_⟩
              intro hz
              exact hnz (by rw [this]; exact Or.inr hz)
          · rintro ⟨hne, hp, hnz⟩
            refine ⟨hp, ?_⟩
            intro hz0
            rw [hdone.hocc p hp] at hz0
            rcases hz0 with he | hz
            · exact hne he
            · exact hnz hz
        rw [hocceq, Finset.card_erase_of_mem
          (mem_occupied.mpr ⟨hdone.hg, hdone.hgocc⟩), ← h.count]
      · exact hdone.hnodup
      · exact hdone.hprobe
    refine ⟨_, rfl, hInv', rfl, rfl, ?_, fun _ => rfl, ?_⟩
    · intro k' v'
      by_cases hk'0 : k' = 0
      · subst hk'0
        constructor
        · rintro ⟨_, _, _, habs⟩
          exact absurd rfl habs
        · rintro ⟨_, _, _, _, habs⟩
          exact absurd rfl habs
      · have := hdone.hpairs k' v' hk'0
        constructor
        · rintro ⟨p, hp, hpe, _⟩
          obtain ⟨hne, q, hq, hqe⟩ := this.mp ⟨p, hp, hpe⟩
          exact ⟨hne, q, hq, hqe, hk'0⟩
        · rintro ⟨hne, q, hq, hqe, _⟩
          obtain ⟨p, hp, hpe⟩ := this.mpr ⟨hne, q, hq, hqe⟩
          exact ⟨p, hp, hpe, hk'0⟩
    · intro hno
      exfalso
      apply hno (tget m.table j).value
      refine ⟨j, hj, ?_, hk0⟩
      rw [← hkk]

end FlatMap

namespace FlatMap

/-- Under the invariant, `clear()` restores exactly the initial state. -/
theorem clear_eq_init {m : FlatMap} (h : Inv m) : m.clear = init := by
  unfold clear init
  by_cases hc : m.capacity = 4
  · rw [if_pos hc]
    have hm : m.mask = 3 := by rw [h.mask_eq, hc]
    cases m
    simp_all
  · rw [if_neg hc]

theorem empty_iff_no_pairs {m : FlatMap} (h : Inv m) :
    m.empty = true ↔ ∀ k v, ¬ HasPair m k v := by
  unfold empty
  rw [Nat.beq_eq_true_eq]
  exact size_eq_zero_iff h

end FlatMap

/-! ## Sequences of map operations (for the functional-correctness claim) -/

/-- One client operation on a `FlatMap`. -/
inductive MapOp where
  | ins (k v : Nat)
  | del (k : Nat)
  | get (k : Nat)
deriving DecidableEq, Repr

/-- Run one operation (a `find` does not change the state). -/
def runOp (m : FlatMap) : MapOp → Option FlatMap
  | .ins k v => m.insert k v
  | .del k => m.erase k
  | .get _ => some m

/-- Run a sequence of operations starting from a fresh map. -/
def runOps (ops : List MapOp) : Option FlatMap :=
  ops.foldl (fun acc op => acc.bind fun m => runOp m op) (some FlatMap.init)

/-- The reference model: an association list, most recent binding first,
with at most one binding per key. -/
def specStep (s : List (Nat × Nat)) : MapOp → List (Nat × Nat)
  | .ins k v => (k, v) :: s.filter fun p => p.1 != k
  | .del k => s.filter fun p => p.1 != k
  | .get _ => s

def specOf (ops : List MapOp) : List (Nat × Nat) :=
  ops.foldl specStep []

/-- Keys handed to `insert` must be nonzero (the map's documented
contract). -/
def OpWF : MapOp → Prop
  | .ins k _ => k ≠ 0
  | .del _ => True
  | .get _ => True

instance : DecidablePred OpWF := by
  intro op
  cases op <;> simp [OpWF] <;> infer_instance

def OpsWF (ops : List MapOp) : Prop :=
  ∀ op ∈ ops, OpWF op

instance : DecidablePred OpsWF := fun ops =>
  List.decidableBAll OpWF ops

theorem lookup_cons_eq {k : Nat} (a : Nat × Nat) (tl : List (Nat × Nat))
    (h : k = a.1) : List.lookup k (a :: tl) = some a.2 := by
  rw [List.lookup_cons]
  have hb : (k == a.1) = true := by simp [h]
  rw [hb]

theorem lookup_cons_ne {k : Nat} (a : Nat × Nat) (tl : List (Nat × Nat))
    (h : k ≠ a.1) : List.lookup k (a :: tl) = List.lookup k tl := by
  rw [List.lookup_cons]
  have hb : (k == a.1) = false := by simp [h]
  rw [hb]

theorem lookup_filter_self (s : List (Nat × Nat)) (k : Nat) :
    List.lookup k (s.filter fun p => p.1 != k) = none := by
  induction s with
  | nil => rfl
  | cons a tl ih =>
    rw [List.filter_cons]
    by_cases h : a.1 = k
    · rw [if_neg (by simp [h])]
      exact ih
    · rw [if_pos (by simp [h])]
      rw [lookup_cons_ne a _ (Ne.symm h)]
      exact ih

theorem lookup_filter_ne (s : List (Nat × Nat)) {k k' : Nat} (h : k' ≠ k) :
    List.lookup k' (s.filter fun p => p.1 != k) = List.lookup k' s := by
  induction s with
  | nil => rfl
  | cons a tl ih =>
    rw [List.filter_cons]
    by_cases ha : a.1 = k
    · rw [if_neg (by simp [ha])]
      rw [ih, lookup_cons_ne a _ (by rw [ha]; exact h)]
    · rw [if_pos (by simp [ha])]
      by_cases hk : k' = a.1
      · rw [lookup_cons_eq a _ hk, lookup_cons_eq a _ hk]
      · rw [lookup_cons_ne a _ hk, lookup_cons_ne a _ hk]
        exact ih

theorem lookup_some_iff_mem {s : List (Nat × Nat)} {k : Nat} :
    (∃ v, List.lookup k s = some v) ↔ k ∈ s.map Prod.fst := by
  induction s with
  | nil => simp
  | cons a tl ih =>
    by_cases h : k = a.1
    · simp only [List.map_cons, List.mem_cons]
      constructor
      · intro _
        exact Or.inl h
      · intro _
        exact ⟨a.2, lookup_cons_eq a tl h⟩
    · simp only [lookup_cons_ne a tl h, List.map_cons, List.mem_cons]
      constructor
      · intro hv
        exact Or.inr (ih.mp hv)
      · rintro (he | hm)
        · exact absurd he h
        · exact ih.mpr hm

/-- Under the coupling, the map's `size` is the model's length (the model
keeps at most one binding per key). -/
theorem size_eq_spec_length {m : FlatMap} {s : List (Nat × Nat)}
    (h : FlatMap.Inv m)
    (hpairs : ∀ k v, FlatMap.HasPair m k v ↔ List.lookup k s = some v)
    (hnd : s.Pairwise fun a b => a.1 ≠ b.1) : m.size = s.length := by
  rw [FlatMap.size_eq_keys_card h]
  have hkeys : m.keys = (s.map Prod.fst).toFinset := by
    ext k
    rw [FlatMap.mem_keys_iff, List.mem_toFinset]
    constructor
    · rintro ⟨v, hv⟩
      exact lookup_some_iff_mem.mp ⟨v, (hpairs k v).mp hv⟩
    · intro hm
      obtain ⟨v, hv⟩ := lookup_some_iff_mem.mpr hm
      exact ⟨v, (hpairs k v).mpr hv⟩
  have hnodup : (s.map Prod.fst).Nodup :=
    List.Pairwise.map Prod.fst (fun a b hab => hab) hnd
  rw [hkeys, List.toFinset_card_of_nodup hnodup, List.length_map]

theorem specStep_length (s : List (Nat × Nat)) (op : MapOp) :
    (specStep s op).length ≤ s.length + 1 := by
  cases op with
  | ins k v =>
    simp only [specStep, List.length_cons]
    have := List.length_filter_le (fun p => p.1 != k) s
    omega
  | del k =>
    simp only [specStep]
    have := List.length_filter_le (fun p => p.1 != k) s
    omega
  | get k => simp [specStep]

theorem specStep_pairwise {s : List (Nat × Nat)} (op : MapOp)
    (h : s.Pairwise fun a b => a.1 ≠ b.1) :
    (specStep s op).Pairwise fun a b => a.1 ≠ b.1 := by
  cases op with
  | ins k v =>
    simp only [specStep]
    refine List.Pairwise.cons ?_ (h.filter _)
    intro b hb
    have hbk := List.of_mem_filter hb
    simp only [bne_iff_ne, ne_eq] at hbk
    exact fun he => hbk he.symm
  | del k => exact h.filter _
  | get k => exact h

/-- Generalized induction for `runOps`: the concrete map stays coupled to
the association-list model.  The bound `s.length + ops.length ≤ 2 ^ 14`
keeps every insert below the `uint16_t` growth boundary. -/
theorem runOps_go (ops : List MapOp) :
    ∀ (m : FlatMap) (s : List (Nat × Nat)), FlatMap.Inv m →
      (∀ k v, FlatMap.HasPair m k v ↔ List.lookup k s = some v) →
      (∀ p ∈ s, p.1 ≠ 0) →
      s.Pairwise (fun a b => a.1 ≠ b.1) →
      s.length + ops.length ≤ 2 ^ 14 →
      OpsWF ops →
      ∃ m', ops.foldl (fun acc op => acc.bind fun mm => runOp mm op)
          (some m) = some m' ∧
        FlatMap.Inv m' ∧
        (∀ k v, FlatMap.HasPair m' k v ↔
          List.lookup k (ops.foldl specStep s) = some v) ∧
        (∀ p ∈ ops.foldl specStep s, p.1 ≠ 0) := by
  induction ops with
  | nil =>
    intro m s hInv hpairs hwf _ _ _
    exact ⟨m, rfl, hInv, hpairs, hwf⟩
  | cons op rest ih =>
    intro m s hInv hpairs hkeys hnd hlen hwf
    have hwfop : OpWF op := hwf op (List.mem_cons_self op rest)
    have hwfrest : OpsWF rest := fun o ho => hwf o (List.mem_cons_of_mem op ho)
    rw [List.foldl_cons, List.foldl_cons]
    cases op with
    | ins k v =>
      have hszlt : m.size < 2 ^ 14 := by
        have hsz := size_eq_spec_length hInv hpairs hnd
        simp only [List.length_cons] at hlen
        omega
      obtain ⟨m1, hm1, hInv1, hpairs1, _, _⟩ :=
        FlatMap.insert_spec hInv v (by exact hwfop) (FlatMap.hsafe_of_size hszlt)
      have hstep : (some m).bind (fun mm => runOp mm (.ins k v)) = some m1 := by
        simp [runOp, hm1]
      rw [hstep]
      apply ih m1 _ hInv1
      · intro k' v'
        rw [hpairs1 k' v']
        show _ ↔ List.lookup k' ((k, v) :: s.filter fun p => p.1 != k) = some v'
        by_cases hkk : k' = k
        · subst hkk
          rw [lookup_cons_eq (k', v) _ rfl]
          constructor
          · rintro (⟨_, hv⟩ | ⟨hne, _⟩)
            · rw [hv]
            · exact absurd rfl hne
          · intro hv
            exact Or.inl ⟨rfl, by cases hv; rfl⟩
        · rw [lookup_cons_ne (k, v) _ (by exact hkk)]
          rw [lookup_filter_ne s hkk]
          constructor
          · rintro (⟨hkk2, _⟩ | ⟨_, hp⟩)
            · exact absurd hkk2 hkk
            · exact (hpairs k' v').mp hp
          · intro hl
            exact Or.inr ⟨hkk, (hpairs k' v').mpr hl⟩
      · intro p hp
        rcases List.mem_cons.mp hp with he | hmem
        · rw [he]
          exact hwfop
        · exact hkeys p (List.mem_of_mem_filter hmem)
      · exact specStep_pairwise _ hnd
      · have h1 := specStep_length s (MapOp.ins k v)
        simp only [List.length_cons] at hlen
        omega
      · exact hwfrest
    | del k =>
      obtain ⟨m1, hm1, hInv1, _, _, hpairs1, _, _⟩ :=
        FlatMap.erase_spec hInv k
      have hstep : (some m).bind (fun mm => runOp mm (.del k)) = some m1 := by
        simp [runOp, hm1]
      rw [hstep]
      apply ih m1 _ hInv1
      · intro k' v'
        rw [hpairs1 k' v']
        show _ ↔ List.lookup k' (s.filter fun p => p.1 != k) = some v'
        by_cases hkk : k' = k
        · subst hkk
          rw [lookup_filter_self s k']
          constructor
          · rintro ⟨hne, _⟩
            exact absurd rfl hne
          · intro h
            cases h
        · rw [lookup_filter_ne s hkk]
          constructor
          · rintro ⟨_, hp⟩
            exact (hpairs k' v').mp hp
          · intro hl
            exact ⟨hkk, (hpairs k' v').mpr hl⟩
      · intro p hp
        exact hkeys p (List.mem_of_mem_filter hp)
      · exact specStep_pairwise _ hnd
      · have h1 := specStep_length s (MapOp.del k)
        simp only [List.length_cons] at hlen
        omega
      · exact hwfrest
    | get k =>
      have hstep : (some m).bind (fun mm => runOp mm (.get k)) = some m := rfl
      rw [hstep]
      exact ih m s hInv hpairs hkeys hnd
        (by simp only [List.length_cons] at hlen; omega) hwfrest

/-! ## The 16-bit growth boundary

The `SizeT = uint16_t` instantiation truncates `rehash(capacity * 2)` to
`rehash(0)` at `capacity = 2 ^ 15`.  The re-insertions of that rehash
probe a zero-length table, so the C loop reads out of bounds and never
exits; in the model every such probe runs out of fuel and the whole
`insert` answers `none`.  Inserting `2 ^ 14 + 1` distinct keys into a
fresh map reaches exactly this state. -/

/-- Any `insert` into the zero-capacity table produced by the truncated
`rehash(0)` fails: either the immediate re-`rehash(0)` runs out of fuel
or the probe loop gets fuel `capacity = 0`. -/
theorem insertF_cap0 (fuel k v : Nat) :
    FlatMap.insertF fuel
      ⟨Array.mkArray 0 Entry.zero, 0, (0 + 2 ^ 16 - 1) % 2 ^ 16, 0⟩ k v
      = none := by
  cases fuel with
  | zero => rfl
  | succ f =>
    cases f with
    | zero => rfl
    | succ g => rfl

theorem none_fold (fuel : Nat) (es : List Entry) :
    List.foldl (fun acc e => match acc with
      | none => none
      | some mm => if e.key ≠ 0 then FlatMap.insertF fuel mm e.key e.value
          else some mm) none es = none := by
  induction es with
  | nil => rfl
  | cons e tl ih => exact ih

theorem rehash_fold_dead (fuel : Nat) : ∀ es : List Entry,
    (∃ e ∈ es, e.key ≠ 0) →
    List.foldl (fun acc e => match acc with
      | none => none
      | some mm => if e.key ≠ 0 then FlatMap.insertF fuel mm e.key e.value
          else some mm)
      (some (⟨Array.mkArray 0 Entry.zero, 0,
        (0 + 2 ^ 16 - 1) % 2 ^ 16, 0⟩ : FlatMap)) es = none := by
  intro es
  induction es with
  | nil =>
    rintro ⟨e, he, -⟩
    cases he
  | cons e tl ih =>
    rintro ⟨e0, he0, hk0⟩
    simp only [List.foldl_cons]
    by_cases hek : e.key ≠ 0
    · rw [if_pos hek, insertF_cap0]
      exact none_fold fuel tl
    · rw [if_neg hek]
      apply ih
      rcases List.mem_cons.mp he0 with he | hm
      · exfalso
        rw [he] at hk0
        exact hek hk0
      · exact ⟨e0, hm, hk0⟩

/-- The truncated growth call `rehash(0)` on a table with at least one
live entry never returns: its first re-insertion probes the zero-length
table. -/
theorem rehashF_zero_none {fuel : Nat} {m : FlatMap}
    (h : ∃ e ∈ m.table.toList, e.key ≠ 0) :
    FlatMap.rehashF (fuel + 1) m 0 = none := by
  rw [FlatMap.rehashF]
  rw [Array.foldl_eq_foldl_toList]
  exact rehash_fold_dead fuel m.table.toList h

/-- A map whose pairs are exactly `(k, k)` for `1 ≤ k ≤ n` has `size = n`. -/
theorem size_of_seg_pairs {m : FlatMap} {n : Nat} (h : FlatMap.Inv m)
    (hp : ∀ k v, FlatMap.HasPair m k v ↔ 1 ≤ k ∧ k ≤ n ∧ v = k) :
    m.size = n := by
  rw [FlatMap.size_eq_keys_card h]
  have hkeys : m.keys = Finset.Icc 1 n := by
    ext k
    rw [FlatMap.mem_keys_iff, Finset.mem_Icc]
    constructor
    · rintro ⟨v, hv⟩
      obtain ⟨h1, h2, -⟩ := (hp k v).mp hv
      exact ⟨h1, h2⟩
    · rintro ⟨h1, h2⟩
      exact ⟨k, (hp k k).mpr ⟨h1, h2, rfl⟩⟩
  rw [hkeys, Nat.card_Icc]
  omega

/-- At the boundary state (`capacity = 2 ^ 15`, `size = 2 ^ 14`) every
`insert` trips the growth check, calls the truncated `rehash(0)`, and
never returns. -/
theorem insert_at_boundary {m : FlatMap} (h : FlatMap.Inv m)
    (hcap : m.capacity = 2 ^ 15) (hsize : m.size = 2 ^ 14) (k v : Nat) :
    m.insert k v = none := by
  have hex : ∃ e ∈ m.table.toList, e.key ≠ 0 := by
    have hne : ¬ ∀ k' v', ¬ FlatMap.HasPair m k' v' := by
      rw [← FlatMap.size_eq_zero_iff h, hsize]
      norm_num
    push_neg at hne
    obtain ⟨k', v', hp⟩ := hne
    obtain ⟨hmem, hk'⟩ := (FlatMap.hasPair_iff_mem_toList h.len).mp hp
    exact ⟨⟨k', v'⟩, hmem, hk'⟩
  unfold FlatMap.insert
  rw [show (3 : Nat) = 2 + 1 from rfl, FlatMap.insertF]
  rw [if_pos (by rw [hcap, hsize]; norm_num)]
  rw [show (m.capacity * 2) % 2 ^ 16 = 0 from by rw [hcap]; norm_num]
  rw [@rehashF_zero_none 1 m hex]

/-- `n` distinct inserts: keys `1 .. n`, each with itself as value. -/
def chainOps (n : Nat) : List MapOp :=
  (List.range n).map fun i => MapOp.ins (i + 1) (i + 1)

theorem chainOps_succ (n : Nat) :
    chainOps (n + 1) = chainOps n ++ [MapOp.ins (n + 1) (n + 1)] := by
  unfold chainOps
  rw [List.range_succ, List.map_append]
  rfl

/-- Below the boundary the chain of distinct inserts succeeds and reaches
a well-formed map holding exactly keys `1 .. n`, with capacity at most
`2 ^ 15`. -/
theorem chainInv : ∀ n, n ≤ 2 ^ 14 →
    ∃ m, runOps (chainOps n) = some m ∧ FlatMap.Inv m ∧
      m.capacity ≤ 2 ^ 15 ∧
      (∀ k v, FlatMap.HasPair m k v ↔ 1 ≤ k ∧ k ≤ n ∧ v = k) := by
  intro n
  induction n with
  | zero =>
    intro _
    refine ⟨FlatMap.init, rfl, FlatMap.Inv_init, by decide, ?_⟩
    intro k v
    constructor
    · intro hp
      exact absurd hp (FlatMap.not_hasPair_init k v)
    · rintro ⟨h1, h0, -⟩
      omega
  | succ n ih =>
    intro hn
    obtain ⟨m, hrun, hInv, hcap15, hpairs⟩ := ih (by omega)
    have hsize : m.size = n := size_of_seg_pairs hInv hpairs
    have hszlt : m.size < 2 ^ 14 := by omega
    obtain ⟨m', hins, hInv', hpairs', hcap', -⟩ :=
      @FlatMap.insert_spec m hInv (n + 1) (n + 1) (by omega)
        (FlatMap.hsafe_of_size hszlt)
    refine ⟨m', ?_, hInv', ?_, ?_⟩
    · rw [chainOps_succ]
      unfold runOps
      unfold runOps at hrun
      rw [List.foldl_append, hrun]
      simp [runOp, hins]
    · rw [hcap']
      by_cases hg : m.size * 2 ≥ m.capacity
      · rw [if_pos hg]
        obtain ⟨j, hj2, hjc⟩ := hInv.kpow
        have h14 : (2 : Nat) ^ 14 = 16384 := by norm_num
        have h15 : (2 : Nat) ^ 15 = 32768 := by norm_num
        have hclow : m.capacity < 2 ^ 15 := by omega
        have hj15 : j < 15 := by
          by_contra hge
          push_neg at hge
          have : 2 ^ 15 ≤ 2 ^ j := Nat.pow_le_pow_right (by omega) hge
          omega
        have hc14 : m.capacity ≤ 2 ^ 14 := by
          rw [hjc]
          exact Nat.pow_le_pow_right (by omega) (by omega)
        omega
      · rw [if_neg hg]
        exact hcap15
    · intro k v
      rw [hpairs' k v]
      constructor
      · rintro (⟨hk, hv⟩ | ⟨hne, hp⟩)
        · subst hk
          subst hv
          exact ⟨by omega, by omega, rfl⟩
        · obtain ⟨h1, h2, h3⟩ := (hpairs k v).mp hp
          exact ⟨h1, by omega, h3⟩
      · rintro ⟨h1, h2, hv⟩
        by_cases hk : k = n + 1
        · exact Or.inl ⟨hk, by omega⟩
        · exact Or.inr ⟨hk, (hpairs k v).mpr ⟨h1, by omega, hv⟩⟩

/-! ## Claims about the FlatMap -/

/-- C1 (amended: at most `2 ^ 14` operations, which keeps every insert
below the `uint16_t` growth boundary — the 16385-th distinct insert would
truncate `rehash(2 * capacity)` to `rehash(0)` and destroy the table):
for every such sequence of insert/find/erase operations with non-zero
keys applied to a FlatMap that starts empty, after the sequence `find k`
returns exactly the most recently inserted value for every live key `k`
and NULL (`none`) for every erased or never-inserted key, and `empty()`
is true iff no live keys remain — including across capacity-doubling
rehashes and backward-shift deletions. -/
theorem C1_map_functional_correctness (ops : List MapOp) (hwf : OpsWF ops)
    (hlen : ops.length ≤ 2 ^ 14) :
    ∃ m, runOps ops = some m ∧
      (∀ k, m.find k = List.lookup k (specOf ops)) ∧
      (m.empty = true ↔ specOf ops = []) := by
  obtain ⟨m, hm, hInv, hpairs, _⟩ := runOps_go ops FlatMap.init []
    FlatMap.Inv_init
    (by
      intro k v
      constructor
      · intro hp
        exact absurd hp (FlatMap.not_hasPair_init k v)
      · intro hl
        cases hl)
    (by intro p hp; cases hp)
    List.Pairwise.nil
    (by simpa using hlen)
    hwf
  refine ⟨m, hm, ?_, ?_⟩
  · intro k
    cases hl : List.lookup k (specOf ops) with
    | none =>
      rw [FlatMap.find_eq_none_iff hInv]
      intro v hv
      have := (hpairs k v).mp hv
      rw [show List.foldl specStep [] ops = specOf ops from rfl, hl] at this
      cases this
    | some v =>
      apply FlatMap.find_some_of_hasPair hInv
      apply (hpairs k v).mpr
      rw [show List.foldl specStep [] ops = specOf ops from rfl, hl]
  · rw [FlatMap.empty_iff_no_pairs hInv]
    constructor
    · intro hno
      cases hs : specOf ops with
      | nil => rfl
      | cons a tl =>
        exfalso
        apply hno a.1 a.2
        apply (hpairs a.1 a.2).mpr
        rw [show List.foldl specStep [] ops = specOf ops from rfl, hs]
        exact lookup_cons_eq a tl rfl
    · intro hs k v hv
      have := (hpairs k v).mp hv
      rw [show List.foldl specStep [] ops = specOf ops from rfl, hs] at this
      cases this

theorem C1_map_functional_correctness_witness :
    OpsWF [MapOp.ins 1 10, MapOp.ins 2 20, MapOp.del 1, MapOp.get 2] ∧
    [MapOp.ins 1 10, MapOp.ins 2 20, MapOp.del 1, MapOp.get 2].length
      ≤ 2 ^ 14 ∧
    ∃ m, runOps [MapOp.ins 1 10, MapOp.ins 2 20, MapOp.del 1, MapOp.get 2]
        = some m ∧
      (∀ k, m.find k =
        List.lookup k (specOf [MapOp.ins 1 10, MapOp.ins 2 20, MapOp.del 1,
          MapOp.get 2])) ∧
      (m.empty = true ↔
        specOf [MapOp.ins 1 10, MapOp.ins 2 20, MapOp.del 1, MapOp.get 2]
          = []) :=
  ⟨by decide, by decide, C1_map_functional_correctness _ (by decide) (by decide)⟩

/-- C1 counterexample: the claim quantifies over *every* finite sequence
of distinct non-zero-key operations, but `2 ^ 14 + 1 = 16385` distinct
inserts destroy the map.  The 16385-th insert finds `size = 2 ^ 14`,
`capacity = 2 ^ 15`, trips the growth check, and the `uint16_t` `SizeT`
parameter truncates `rehash(capacity * 2)` to `rehash(0)`; the
re-insertions then probe a zero-length table, so the C loop reads out of
bounds and never exits (`runOps = none`), while the claim promises a live
map on which `find` answers for every inserted key. -/
theorem C1_counterexample :
    OpsWF (chainOps (2 ^ 14 + 1)) ∧
    runOps (chainOps (2 ^ 14 + 1)) = none := by
  constructor
  · intro op hop
    unfold chainOps at hop
    simp only [List.mem_map, List.mem_range] at hop
    obtain ⟨i, -, rfl⟩ := hop
    exact Nat.succ_ne_zero i
  · obtain ⟨m, hrun, hInv, hcap15, hpairs⟩ := chainInv (2 ^ 14) le_rfl
    have hsize : m.size = 2 ^ 14 := size_of_seg_pairs hInv hpairs
    have hcap : m.capacity = 2 ^ 15 := by
      have hload := hInv.load
      have h14 : (2 : Nat) ^ 14 = 16384 := by norm_num
      have h15 : (2 : Nat) ^ 15 = 32768 := by norm_num
      omega
    rw [chainOps_succ]
    unfold runOps
    unfold runOps at hrun
    rw [List.foldl_append, hrun]
    simp [runOp, insert_at_boundary hInv hcap hsize]

/-- C4 as frozen is false: on the reachable map built by inserting keys 1
and 2 into a fresh table (capacity 4, size 2), key 1 is present, yet
`insert(1, 99)` doubles the capacity to 8 — the growth check
`size * 2 >= capacity` runs before the key is looked up, so an overwrite
is not always a structural no-op. -/
theorem C4_counterexample :
    ((FlatMap.init.insert 1 10).bind fun m => m.insert 2 20).map
        (fun m => ((m.find 1).isSome, m.capacity, m.size)) =
      some (true, 4, 2) ∧
    (((FlatMap.init.insert 1 10).bind fun m => m.insert 2 20).bind fun m =>
        m.insert 1 99).map FlatMap.capacity = some 8 := by
  decide

/-- C4 (amended): for every non-zero key `k` already present and value `v`
on a map with `size < 2 ^ 14` (below the `uint16_t` growth boundary, where
the doubling would truncate), `insert(k, v)` overwrites the stored value,
and it is a no-op on the map's structure (capacity, mask, entry count, and
all other slots unchanged) provided the call does not trip the growth
check, i.e. `2 * size < capacity` at entry; growth (capacity doubling and
rehash) is triggered exactly when `size * 2 >= capacity` at the start of
`insert`, whether or not the key is already present. -/
theorem C4_insert_overwrite_frame (m : FlatMap) (k v : Nat)
    (h : FlatMap.Inv m) (hk : k ≠ 0) (hsz : m.size < 2 ^ 14) :
    (∀ w, m.find k = some w → m.size * 2 < m.capacity →
      ∃ m' i, m.insert k v = some m' ∧
        m'.capacity = m.capacity ∧ m'.mask = m.mask ∧ m'.size = m.size ∧
        i < m.capacity ∧ (tget m.table i).key = k ∧
        m'.table = tset m.table i ⟨k, v⟩ ∧
        m'.find k = some v ∧
        (∀ p, p < m.capacity → p ≠ i → tget m'.table p = tget m.table p)) ∧
    (∃ m', m.insert k v = some m' ∧
      m'.capacity = (if m.size * 2 ≥ m.capacity then m.capacity * 2
        else m.capacity)) := by
  obtain ⟨m', hm', hInv', hpairs', hcap', hrest⟩ :=
    FlatMap.insert_spec h v hk (FlatMap.hsafe_of_size hsz)
  constructor
  · intro w hw hlt
    obtain ⟨hmask, hover, _⟩ := hrest hlt
    obtain ⟨hsize, i, hi, hik, htab⟩ := hover ⟨w, hw⟩
    refine ⟨m', i, hm', ?_, hmask, hsize, hi, hik, htab, ?_, ?_⟩
    · rw [hcap', if_neg (by omega)]
    · apply FlatMap.find_some_of_hasPair hInv'
      exact (hpairs' k v).mpr (Or.inl ⟨rfl, rfl⟩)
    · intro p hp hpi
      rw [htab]
      exact tget_tset_ne m.table (fun he => hpi he.symm) _
  · exact ⟨m', hm', hcap'⟩

theorem C4_insert_overwrite_frame_witness :
    FlatMap.Inv FlatMap.init ∧ (1 : Nat) ≠ 0 ∧
    FlatMap.init.size < 2 ^ 14 ∧
    ((∀ w, FlatMap.init.find 1 = some w →
      FlatMap.init.size * 2 < FlatMap.init.capacity →
      ∃ m' i, FlatMap.init.insert 1 5 = some m' ∧
        m'.capacity = FlatMap.init.capacity ∧ m'.mask = FlatMap.init.mask ∧
        m'.size = FlatMap.init.size ∧
        i < FlatMap.init.capacity ∧ (tget FlatMap.init.table i).key = 1 ∧
        m'.table = tset FlatMap.init.table i ⟨1, 5⟩ ∧
        m'.find 1 = some 5 ∧
        (∀ p, p < FlatMap.init.capacity → p ≠ i →
          tget m'.table p = tget FlatMap.init.table p)) ∧
    (∃ m', FlatMap.init.insert 1 5 = some m' ∧
      m'.capacity = (if FlatMap.init.size * 2 ≥ FlatMap.init.capacity
        then FlatMap.init.capacity * 2 else FlatMap.init.capacity))) :=
  ⟨FlatMap.Inv_init, by decide, by decide,
    C4_insert_overwrite_frame FlatMap.init 1 5 FlatMap.Inv_init (by decide)
      (by decide)⟩

/-- C10 (amended: `insert` additionally needs `size < 2 ^ 14`, i.e. the
call must sit below the `uint16_t` growth boundary — at `capacity =
2 ^ 15`, `size = 2 ^ 14` the source truncates `rehash(2 ^ 16)` to
`rehash(0)` and destroys the table): the FlatMap preserves, across such
an `insert` (with a non-zero key), `erase`, and `clear`, the invariant
that the capacity is a power of two of at least 4 and
`2 * size <= capacity`; consequently the table always contains an empty
slot and the linear-probe loops of `insert`, `find`, and `erase`
terminate (return a result) for every key. -/
theorem C10_invariant_and_termination :
    FlatMap.Inv FlatMap.init ∧
    (∀ m k v, FlatMap.Inv m → k ≠ 0 → m.size < 2 ^ 14 →
      ∃ m', m.insert k v = some m' ∧ FlatMap.Inv m') ∧
    (∀ m k, FlatMap.Inv m →
      ∃ m', m.erase k = some m' ∧ FlatMap.Inv m') ∧
    (∀ m, FlatMap.Inv m → FlatMap.Inv m.clear) ∧
    (∀ m, FlatMap.Inv m →
      (∃ u, 2 ≤ u ∧ m.capacity = 2 ^ u) ∧ 4 ≤ m.capacity ∧
        2 * m.size ≤ m.capacity ∧
        ∃ i, i < m.capacity ∧ (tget m.table i).key = 0) ∧
    (∀ m k, FlatMap.Inv m →
      ∃ i, FlatMap.probeLoop m.table m.mask k m.capacity (m.hash k)
        = some i) := by
  refine ⟨FlatMap.Inv_init, ?_, ?_, ?_, ?_, ?_⟩
  · intro m k v h hk hsz
    obtain ⟨m', hm', hInv', _⟩ :=
      FlatMap.insert_spec h v hk (FlatMap.hsafe_of_size hsz)
    exact ⟨m', hm', hInv'⟩
  · intro m k h
    obtain ⟨m', hm', hInv', _⟩ := FlatMap.erase_spec h k
    exact ⟨m', hm', hInv'⟩
  · intro m h
    rw [FlatMap.clear_eq_init h]
    exact FlatMap.Inv_init
  · intro m h
    exact ⟨h.kpow, h.cap_ge_four, h.load, h.exists_empty_slot⟩
  · intro m k h
    exact h.probe_total k

theorem C10_invariant_and_termination_witness :
    FlatMap.Inv FlatMap.init ∧ (3 : Nat) ≠ 0 ∧
    FlatMap.init.size < 2 ^ 14 ∧
    (∃ m', FlatMap.init.insert 3 7 = some m' ∧ FlatMap.Inv m') ∧
    (∃ m', FlatMap.init.erase 3 = some m' ∧ FlatMap.Inv m') ∧
    FlatMap.Inv (FlatMap.init.clear) ∧
    (∃ i, FlatMap.probeLoop FlatMap.init.table FlatMap.init.mask 3
      FlatMap.init.capacity (FlatMap.init.hash 3) = some i) :=
  ⟨C10_invariant_and_termination.1, by decide, by decide,
    C10_invariant_and_termination.2.1 FlatMap.init 3 7
      C10_invariant_and_termination.1 (by decide) (by decide),
    C10_invariant_and_termination.2.2.1 FlatMap.init 3
      C10_invariant_and_termination.1,
    C10_invariant_and_termination.2.2.2.1 FlatMap.init
      C10_invariant_and_termination.1,
    C10_invariant_and_termination.2.2.2.2.2 FlatMap.init 3
      C10_invariant_and_termination.1⟩

/-- C10 counterexample: invariant preservation fails at the 16-bit growth
boundary.  The reachable, invariant-satisfying map produced by `2 ^ 14`
distinct inserts has `capacity = 2 ^ 15` and `size = 2 ^ 14`; the next
insert trips the growth check, the `uint16_t` `SizeT` truncates
`rehash(capacity * 2)` to `rehash(0)`, and the probe loops of the
re-insertions never exit (`insert = none`) — the claimed preservation and
termination are false of the program at this state. -/
theorem C10_counterexample :
    ∃ m, runOps (chainOps (2 ^ 14)) = some m ∧ FlatMap.Inv m ∧
      m.capacity = 2 ^ 15 ∧ m.size = 2 ^ 14 ∧
      m.insert (2 ^ 14 + 1) 1 = none := by
  obtain ⟨m, hrun, hInv, hcap15, hpairs⟩ := chainInv (2 ^ 14) le_rfl
  have hsize : m.size = 2 ^ 14 := size_of_seg_pairs hInv hpairs
  have hcap : m.capacity = 2 ^ 15 := by
    have hload := hInv.load
    have h14 : (2 : Nat) ^ 14 = 16384 := by norm_num
    have h15 : (2 : Nat) ^ 15 = 32768 := by norm_num
    omega
  exact ⟨m, hrun, hInv, hcap, hsize, insert_at_boundary hInv hcap hsize _ _⟩

/-! ## The Object runtime (`src/src/Object.cpp`, packed 64-bit refcount
variant)

A C handle `Object*` is `Option Object`, `none` being NULL; an operation
that `delete`s the object returns `none`.  The `finalize`/`free` callbacks
are modelled as observers: running one records an `Event` and mutates
nothing.  Classes are compared by pointer identity, so a `Class*` is its
address (a `Nat`) plus the two facts the runtime reads from it: whether
its `finalize` and `free` slots are non-null. -/

/-- A `Class*` as the runtime sees it. -/
structure ClassDesc where
  id : Nat
  hasFinalize : Bool
  hasFree : Bool
deriving DecidableEq, Repr

/-- `struct Object`: the class registry ordered by attachment, the three
`FlatMap`s, and the packed 64-bit reference-count word
(low 32 bits = strong count, high 32 bits = weak count; starts at 1). -/
structure Object where
  classes : List ClassDesc
  datas : FlatMap
  methods : FlatMap
  supermethods : FlatMap
  refs : Nat
deriving DecidableEq, Repr

/-- A finalize or free callback invocation, recorded with its class id. -/
inductive Event where
  | finalize (classId : Nat)
  | free (classId : Nat)
deriving DecidableEq, Repr

def MASK32 : Nat := 0xFFFFFFFF

/-- Low 32 bits of the packed word: the strong count (`refs & 0xFFFFFFFF`). -/
def strongOf (refs : Nat) : Nat := refs &&& MASK32

/-- High 32 bits of the packed word: the weak count (`refs >> 32`). -/
def weakOf (refs : Nat) : Nat := refs >>> 32

/-- `refs.fetch_add(x)` wraps at 64 bits; this is the updated value. -/
def fetchAdd (refs x : Nat) : Nat := (refs + x) % 2 ^ 64

/-- `refs.fetch_sub(x)` for `x ≤ 2 ^ 64`; this is the updated value. -/
def fetchSub (refs x : Nat) : Nat := (refs + (2 ^ 64 - x)) % 2 ^ 64

/-- `Object_create`: `new Object` with empty members and `refs{1}`. -/
def Object_create : Object :=
  ⟨[], FlatMap.init, FlatMap.init, FlatMap.init, 1⟩

/-- `Object_ref`: strong increment, guarded against a strong count of 0
(protects against taking a reference inside a finalize/free callback). -/
def Object_ref : Option Object → Option Object
  | none => none
  | some o =>
    if strongOf o.refs = 0 then some o
    else some { o with refs := fetchAdd o.refs 1 }

/-- `Object_refs_get`: `refs & 0xFFFFFFFF`, 0 for NULL. -/
def Object_refs_get : Option Object → Nat
  | none => 0
  | some o => strongOf o.refs

/-- `Object_weak_ref`: unconditional `fetch_add(1 << 32)`. -/
def Object_weak_ref : Option Object → Option Object
  | none => none
  | some o => some { o with refs := fetchAdd o.refs (2 ^ 32) }

/-- `Object_weak_unref`: guarded weak decrement via `fetch_sub(1 << 32)`;
the shell is `delete`d exactly when the pre-decrement word had weak
count 1 and strong count 0. -/
def Object_weak_unref : Option Object → Option Object
  | none => none
  | some o =>
    if weakOf o.refs = 0 then some o
    else
      if weakOf o.refs = 1 ∧ strongOf o.refs = 0 then none
      else some { o with refs := fetchSub o.refs (2 ^ 32) }

/-- `Object_weak_refs_get`: `refs >> 32`, 0 for NULL. -/
def Object_weak_refs_get : Option Object → Nat
  | none => 0
  | some o => weakOf o.refs

/-- `Object_weak_lock`: the CAS loop run sequentially (no interference):
the loaded word decides — strong > 0 succeeds on the first exchange
(raw 64-bit `refs + 1`), strong = 0 returns false untouched. -/
def Object_weak_lock : Option Object → Bool × Option Object
  | none => (false, none)
  | some o =>
    if 0 < strongOf o.refs then (true, some { o with refs := fetchAdd o.refs 1 })
    else (false, some o)

/-- The finalize pass of `Object_unref`: iterate the registry from the
back (`rbegin` to `rend`), recording an event for each class whose
`finalize` slot is non-null. -/
def finalizeEvents : List ClassDesc → List Event
  | [] => []
  | c :: rest =>
    finalizeEvents rest ++ (if c.hasFinalize then [Event.finalize c.id] else [])

/-- The free pass of `Object_unref`, fuel-indexed by the registry length:
`while (!classes.empty())` take the back class, record its free callback
(which sees the current state — the class is still registered), then
`pop_back()`.  The popped class's `datas` entry is deliberately not
erased.  Returns the final state and the events in invocation order. -/
def freePassGo : Nat → Object → Object × List Event
  | 0, o => (o, [])
  | fuel + 1, o =>
    match o.classes.getLast? with
    | none => (o, [])
    | some c =>
      let rest := freePassGo fuel { o with classes := o.classes.dropLast }
      (rest.1, (if c.hasFree then [Event.free c.id] else []) ++ rest.2)

/-- The states passed to the free callbacks of the free pass, paired with
the class whose callback runs (the class is popped only after its
callback returns). -/
def freeCalls : Nat → Object → List (ClassDesc × Object)
  | 0, _ => []
  | fuel + 1, o =>
    match o.classes.getLast? with
    | none => []
    | some c => (c, o) :: freeCalls fuel { o with classes := o.classes.dropLast }

/-- `Object_unref`'s teardown up to, but not including, the final
`Object_weak_unref`: take the guard weak reference, run the finalize and
free passes, clear the three maps.  Returns the state handed to the
final `Object_weak_unref` and the recorded callback events. -/
def teardownCore (o : Object) : Object × List Event :=
  let o1 : Object := { o with refs := fetchAdd o.refs (2 ^ 32) }
  let fp := freePassGo o1.classes.length o1
  ({ fp.1 with datas := fp.1.datas.clear,
               methods := fp.1.methods.clear,
               supermethods := fp.1.supermethods.clear },
    finalizeEvents o1.classes ++ fp.2)

/-- `Object_unref`: strong decrement guarded against a strong count of 0;
when the pre-decrement strong count was exactly 1, run teardown and the
final `Object_weak_unref`.  Returns the handle afterwards (`none` once
the shell is deleted), whether teardown ran, and the callback events. -/
def Object_unref : Option Object → Option Object × Bool × List Event
  | none => (none, false, [])
  | some o =>
    if strongOf o.refs = 0 then (some o, false, [])
    else
      let o1 : Object := { o with refs := fetchSub o.refs 1 }
      if strongOf o.refs ≠ 1 then (some o1, false, [])
      else
        let td := teardownCore o1
        (Object_weak_unref (some td.1), true, td.2)

/-- `Object_class_push`: no-op if the class already has a `datas` entry;
otherwise insert its data and append it to the registry.  The `none` on
the insert side models the non-terminating probe loop of a corrupted
table, impossible under the invariant. -/
def Object_class_push : Option Object → ClassDesc → Nat → Option Object
  | none, _, _ => none
  | some o, cls, data =>
    match o.datas.find cls.id with
    | some _ => some o
    | none =>
      match o.datas.insert cls.id data with
      | some d => some { o with datas := d, classes := o.classes ++ [cls] }
      | none => none

/-- `Object_class_check`, with `*dataOut` made explicit: the Boolean
result paired with the value the call writes through `dataOut`. -/
def Object_class_check (h : Option Object) (clsId : Nat) : Bool × Option Nat :=
  match h with
  | none => (false, none)
  | some o =>
    match o.datas.find clsId with
    | none => (false, none)
    | some d => (true, some d)

/-- `Object_method_push`: if the dispatcher already has a method, record
the overridden one in `supermethods` (only if the new method has no
supermethod yet) and overwrite through the `find` pointer; otherwise
insert a fresh binding. -/
def Object_method_push : Option Object → Nat → Nat → Option Object
  | none, _, _ => none
  | some o, dispatcher, method =>
    match o.methods.find dispatcher with
    | some supermethod =>
      match (if (o.supermethods.find method).isNone
          then o.supermethods.insert method supermethod
          else some o.supermethods) with
      | none => none
      | some sm => some { o with supermethods := sm,
                                 methods := o.methods.writeThrough dispatcher method }
    | none =>
      match o.methods.insert dispatcher method with
      | some ms => some { o with methods := ms }
      | none => none

/-- `Object_method_get`: the method bound to a dispatcher, NULL for NULL
or unbound. -/
def Object_method_get : Option Object → Nat → Option Nat
  | none, _ => none
  | some o, dispatcher => o.methods.find dispatcher

/-- `Object_supermethod_get`: the method a given method overrode. -/
def Object_supermethod_get : Option Object → Nat → Option Nat
  | none, _ => none
  | some o, method => o.supermethods.find method

/-- `Object_inspect`: NULL in, NULL out; otherwise a rendering of the two
refcounts and the registered class ids (addresses and class-name strings
are not modelled). -/
def Object_inspect : Option Object → Option String
  | none => none
  | some o =>
    some ("Object[" ++ toString (strongOf o.refs) ++ "," ++ toString (weakOf o.refs)
      ++ "]:" ++ String.join (o.classes.map fun c => " " ++ toString c.id))

/-- `N` iterated `Object_ref` calls. -/
def refIter : Nat → Option Object → Option Object
  | 0, h => h
  | n + 1, h => refIter n (Object_ref h)

/-- `N` iterated `Object_unref` calls, counting how many triggered
teardown and concatenating the recorded callback events. -/
def unrefSeq : Nat → Option Object → Option Object × Nat × List Event
  | 0, h => (h, 0, [])
  | n + 1, h =>
    let r := Object_unref h
    let rest := unrefSeq n r.1
    (rest.1, (if r.2.1 then 1 else 0) + rest.2.1, r.2.2 ++ rest.2.2)

/-! ## Writing through a find pointer -/

namespace FlatMap

/-- Specification of writing through the pointer returned by a successful
`find` (the `*existing = method` store of `Object_method_push`): the
value stored under `k` is replaced and nothing else changes. -/
theorem writeThrough_spec {m : FlatMap} (h : Inv m) {k : Nat} (v : Nat) {w : Nat}
    (hfind : m.find k = some w) :
    Inv (m.writeThrough k v) ∧
    (m.writeThrough k v).capacity = m.capacity ∧
    (m.writeThrough k v).mask = m.mask ∧
    (m.writeThrough k v).size = m.size ∧
    (∀ k' v', HasPair (m.writeThrough k v) k' v' ↔
      (k' = k ∧ v' = v) ∨ (k' ≠ k ∧ HasPair m k' v')) := by
  obtain ⟨i, hpl⟩ := h.probe_total k
  have hunf := find_eq_probe hpl
  rw [hfind] at hunf
  by_cases hcond : (tget m.table i).key = k ∧ (tget m.table i).key ≠ 0
  · have hki := hcond.1
    have hknz : k ≠ 0 := hki ▸ hcond.2
    obtain ⟨hi, _, _⟩ := probeLoop_some_inv h.mask_succ h.pow_exists
      m.capacity _ i (h.hash_lt k) hpl
    have hlen_i : i < m.table.size := by rw [h.len]; exact hi
    have hres : m.writeThrough k v = { m with table := tset m.table i ⟨k, v⟩ } := by
      unfold writeThrough
      rw [hpl]
      exact if_pos hcond
    rw [hres]
    have htgeti : tget (tset m.table i ⟨k, v⟩) i = ⟨k, v⟩ := tget_tset_eq hlen_i _
    have htget : ∀ p, p ≠ i → tget (tset m.table i ⟨k, v⟩) p = tget m.table p :=
      fun p hpi => tget_tset_ne m.table (fun he => hpi he.symm) _
    have hInv' : Inv { m with table := tset m.table i ⟨k, v⟩ } := by
      refine Inv.of_keys_eq h rfl rfl rfl ?_ ?_
      · show (tset m.table i ⟨k, v⟩).size = m.capacity
        rw [size_tset, h.len]
      · intro p
        by_cases hpi : p = i
        · subst hpi
          show (tget (tset m.table p ⟨k, v⟩) p).key = _
          rw [htgeti]
          exact hki.symm
        · show (tget (tset m.table i ⟨k, v⟩) p).key = _
          rw [htget p hpi]
    refine ⟨hInv', rfl, rfl, rfl, ?_⟩
    intro k' v'
    constructor
    · rintro ⟨p, hp, hpe, hk0'⟩
      by_cases hpi : p = i
      · subst hpi
        rw [htgeti] at hpe
        cases hpe
        exact Or.inl ⟨rfl, rfl⟩
      · rw [htget p hpi] at hpe
        refine Or.inr ⟨?_, p, hp, hpe, hk0'⟩
        intro he
        subst he
        exact hpi (h.nodup p i hp hi (by rw [hpe]; exact hk0') (by rw [hpe, hki]))
    · rintro (⟨hk', hv'⟩ | ⟨hne, p, hp, hpe, hk0'⟩)
      · subst hk'
        subst hv'
        exact ⟨i, hi, htgeti, hknz⟩
      · have hpi : p ≠ i := by
          intro he
          apply hne
          rw [he] at hpe
          have := congrArg Entry.key hpe
          rw [hki] at this
          exact this.symm
        exact ⟨p, hp, by rw [htget p hpi]; exact hpe, hk0'⟩
  · rw [if_neg hcond] at hunf
    cases hunf

end FlatMap

/-! ## Null-handle neutrality -/

/-- C7: every public runtime operation accepts a NULL handle, mutates
nothing, and returns its neutral value: 0 for the two count getters,
false (with the handle untouched) for `Object_weak_lock` and
`Object_class_check`, NULL for `Object_method_get`,
`Object_supermethod_get`, and `Object_inspect`, and a NULL handle (with
no teardown and no callback events) for the reference and push
operations. -/
theorem C7_null_handle_neutral :
    Object_ref none = none ∧
    Object_unref none = (none, false, []) ∧
    Object_refs_get none = 0 ∧
    Object_weak_ref none = none ∧
    Object_weak_unref none = none ∧
    Object_weak_refs_get none = 0 ∧
    Object_weak_lock none = (false, none) ∧
    (∀ cls data, Object_class_push none cls data = none) ∧
    (∀ clsId, Object_class_check none clsId = (false, none)) ∧
    (∀ d mth, Object_method_push none d mth = none) ∧
    (∀ d, Object_method_get none d = none) ∧
    (∀ mth, Object_supermethod_get none mth = none) ∧
    Object_inspect none = none := by
  refine ⟨rfl, rfl, rfl, rfl, rfl, rfl, rfl, ?_, ?_, ?_, ?_, ?_, rfl⟩ <;>
    intros <;> rfl

/-! ## Weak-reference lifecycle -/

/-- C9: with a weak count of 0 the weak decrement is refused:
`Object_weak_unref` returns the handle with the packed reference-count
word unchanged and never deletes the shell. -/
theorem C9_weak_unref_guard (o : Object) (h : weakOf o.refs = 0) :
    Object_weak_unref (some o) = some o := by
  simp only [Object_weak_unref]
  rw [if_pos h]

theorem C9_weak_unref_guard_witness :
    weakOf Object_create.refs = 0 ∧
    Object_weak_unref (some Object_create) = some Object_create :=
  ⟨by decide, C9_weak_unref_guard Object_create (by decide)⟩

/-- C5: once the strong count is 0: `Object_weak_lock` fails and leaves
the word unchanged, `Object_ref` and `Object_unref` are no-ops, a weak
decrement from a weak count above 1 keeps the shell alive with the word
decremented by `1 << 32`, one from weak count 1 deletes the shell — and,
for every state, `Object_weak_unref` deletes the shell exactly when it
sees weak count 1 and strong count 0. -/
theorem C5_weak_lifecycle (o : Object) (hstrong : strongOf o.refs = 0) :
    Object_weak_lock (some o) = (false, some o) ∧
    Object_ref (some o) = some o ∧
    Object_unref (some o) = (some o, false, []) ∧
    (1 < weakOf o.refs →
      Object_weak_unref (some o) = some { o with refs := fetchSub o.refs (2 ^ 32) }) ∧
    (weakOf o.refs = 1 → Object_weak_unref (some o) = none) ∧
    (∀ o' : Object, Object_weak_unref (some o') = none ↔
      weakOf o'.refs = 1 ∧ strongOf o'.refs = 0) := by
  refine ⟨?_, ?_, ?_, ?_, ?_, ?_⟩
  · simp [Object_weak_lock, hstrong]
  · simp [Object_ref, hstrong]
  · simp [Object_unref, hstrong]
  · intro hw
    simp only [Object_weak_unref]
    rw [if_neg (by omega : ¬ weakOf o.refs = 0), if_neg]
    rintro ⟨h1, _⟩
    omega
  · intro hw
    simp only [Object_weak_unref]
    rw [if_neg (by omega : ¬ weakOf o.refs = 0), if_pos ⟨hw, hstrong⟩]
  · intro o'
    constructor
    · intro hdel
      simp only [Object_weak_unref] at hdel
      by_cases h1 : weakOf o'.refs = 0
      · rw [if_pos h1] at hdel
        cases hdel
      · rw [if_neg h1] at hdel
        by_cases h2 : weakOf o'.refs = 1 ∧ strongOf o'.refs = 0
        · exact h2
        · rw [if_neg h2] at hdel
          cases hdel
    · rintro ⟨h1, h2⟩
      simp only [Object_weak_unref]
      rw [if_neg (by omega : ¬ weakOf o'.refs = 0), if_pos ⟨h1, h2⟩]

theorem C5_weak_lifecycle_witness :
    strongOf (2 ^ 33 : Nat) = 0 ∧
    (Object_weak_lock (some { Object_create with refs := 2 ^ 33 }) =
        (false, some { Object_create with refs := 2 ^ 33 }) ∧
      Object_ref (some { Object_create with refs := 2 ^ 33 }) =
        some { Object_create with refs := 2 ^ 33 } ∧
      Object_unref (some { Object_create with refs := 2 ^ 33 }) =
        (some { Object_create with refs := 2 ^ 33 }, false, []) ∧
      (1 < weakOf (2 ^ 33 : Nat) →
        Object_weak_unref (some { Object_create with refs := 2 ^ 33 }) =
          some { Object_create with refs := fetchSub (2 ^ 33) (2 ^ 32) }) ∧
      (weakOf (2 ^ 33 : Nat) = 1 →
        Object_weak_unref (some { Object_create with refs := 2 ^ 33 }) = none) ∧
      (∀ o' : Object, Object_weak_unref (some o') = none ↔
        weakOf o'.refs = 1 ∧ strongOf o'.refs = 0)) :=
  ⟨by decide, C5_weak_lifecycle { Object_create with refs := 2 ^ 33 } (by decide)⟩

/-! ## The finalize and free passes of teardown -/

/-- The free pass never touches the three maps or the refcount word. -/
theorem freePassGo_frame : ∀ (fuel : Nat) (o : Object),
    (freePassGo fuel o).1.datas = o.datas ∧
    (freePassGo fuel o).1.methods = o.methods ∧
    (freePassGo fuel o).1.supermethods = o.supermethods ∧
    (freePassGo fuel o).1.refs = o.refs := by
  intro fuel
  induction fuel with
  | zero => intro o; exact ⟨rfl, rfl, rfl, rfl⟩
  | succ n ih =>
    intro o
    cases hlast : o.classes.getLast? with
    | none =>
      simp only [freePassGo, hlast]
      exact ⟨trivial, trivial, trivial, trivial⟩
    | some c =>
      have := ih { o with classes := o.classes.dropLast }
      simp only [freePassGo, hlast]
      exact this

/-- Every state handed to a free callback carries the maps teardown began
with. -/
theorem freeCalls_frame : ∀ (fuel : Nat) (o : Object),
    ∀ x ∈ freeCalls fuel o,
      x.2.datas = o.datas ∧ x.2.methods = o.methods ∧
        x.2.supermethods = o.supermethods := by
  intro fuel
  induction fuel with
  | zero => intro o x hx; cases hx
  | succ n ih =>
    intro o x hx
    simp only [freeCalls] at hx
    cases hlast : o.classes.getLast? with
    | none =>
      rw [hlast] at hx
      cases hx
    | some c =>
      rw [hlast] at hx
      simp only [List.mem_cons] at hx
      rcases hx with rfl | hx
      · exact ⟨rfl, rfl, rfl⟩
      · exact ih { o with classes := o.classes.dropLast } x hx

/-- The finalize pass records, in reverse attachment order, one event per
class with a non-null `finalize` slot. -/
theorem finalizeEvents_eq (l : List ClassDesc) :
    finalizeEvents l =
      (l.reverse.filter (fun c => c.hasFinalize)).map
        (fun c => Event.finalize c.id) := by
  induction l with
  | nil => rfl
  | cons c rest ih =>
    simp only [finalizeEvents, ih, List.reverse_cons]
    rw [List.filter_append, List.map_append]
    cases hc : c.hasFinalize <;> simp [hc]

/-- The free pass empties the registry and records, in reverse attachment
order, one event per class with a non-null `free` slot. -/
theorem freePassGo_spec : ∀ (l : List ClassDesc) (o : Object), o.classes = l →
    freePassGo l.length o =
      ({ o with classes := [] },
        (l.reverse.filter (fun c => c.hasFree)).map (fun c => Event.free c.id)) := by
  intro l
  induction l using List.reverseRecOn with
  | nil =>
    intro o ho
    simp only [List.length_nil, freePassGo, List.reverse_nil, List.filter_nil,
      List.map_nil]
    cases o
    simp_all
  | append_singleton l' c ih =>
    intro o ho
    have hlen : (l' ++ [c]).length = l'.length + 1 := by simp
    rw [hlen]
    have hlast : o.classes.getLast? = some c := by
      rw [ho]
      exact List.getLast?_concat _
    have hdrop : o.classes.dropLast = l' := by
      rw [ho]
      exact List.dropLast_concat
    have hrec := ih { o with classes := o.classes.dropLast } (by rw [hdrop])
    simp only [freePassGo, hlast, hrec]
    congr 1
    rw [List.reverse_append, List.reverse_singleton, List.singleton_append,
      List.filter_cons]
    cases hc : c.hasFree <;> simp [hc]

/-- C8: the free pass pops classes without erasing their `datas` entries:
every free callback sees the three maps exactly as they were when
teardown began, so `Object_class_check` still answers true with the
original data pointer even for a class popped earlier in the same pass,
and the maps become empty only through the `clear()` calls that run
after the whole pass. -/
theorem C8_free_pass_preserves_datas (o : Object)
    (hd : FlatMap.Inv o.datas) (hm : FlatMap.Inv o.methods)
    (hs : FlatMap.Inv o.supermethods) :
    (∀ x ∈ freeCalls o.classes.length o,
      x.2.datas = o.datas ∧ x.2.methods = o.methods ∧
        x.2.supermethods = o.supermethods) ∧
    (∀ x ∈ freeCalls o.classes.length o, ∀ c ∈ o.classes, ∀ d,
      FlatMap.HasPair o.datas c.id d →
        Object_class_check (some x.2) c.id = (true, some d)) ∧
    ((freePassGo o.classes.length o).1.datas = o.datas ∧
      (freePassGo o.classes.length o).1.methods = o.methods ∧
      (freePassGo o.classes.length o).1.supermethods = o.supermethods) ∧
    ((teardownCore o).1.datas = FlatMap.init ∧
      (teardownCore o).1.methods = FlatMap.init ∧
      (teardownCore o).1.supermethods = FlatMap.init ∧
      ∀ k v, ¬ FlatMap.HasPair (teardownCore o).1.datas k v) := by
  have hfp := freePassGo_frame o.classes.length o
  have h4d : (teardownCore o).1.datas = o.datas.clear := by
    show (freePassGo o.classes.length
      { o with refs := fetchAdd o.refs (2 ^ 32) }).1.datas.clear = o.datas.clear
    rw [(freePassGo_frame _ _).1]
  have h4m : (teardownCore o).1.methods = o.methods.clear := by
    show (freePassGo o.classes.length
      { o with refs := fetchAdd o.refs (2 ^ 32) }).1.methods.clear = o.methods.clear
    rw [(freePassGo_frame _ _).2.1]
  have h4s : (teardownCore o).1.supermethods = o.supermethods.clear := by
    show (freePassGo o.classes.length
      { o with refs := fetchAdd o.refs (2 ^ 32) }).1.supermethods.clear
      = o.supermethods.clear
    rw [(freePassGo_frame _ _).2.2.1]
  refine ⟨freeCalls_frame _ o, ?_, ⟨hfp.1, hfp.2.1, hfp.2.2.1⟩, ?_, ?_, ?_, ?_⟩
  · intro x hx c _ d hp
    have hxd := (freeCalls_frame _ o x hx).1
    simp only [Object_class_check]
    rw [hxd, FlatMap.find_some_of_hasPair hd hp]
  · rw [h4d, FlatMap.clear_eq_init hd]
  · rw [h4m, FlatMap.clear_eq_init hm]
  · rw [h4s, FlatMap.clear_eq_init hs]
  · intro k v
    rw [h4d, FlatMap.clear_eq_init hd]
    exact FlatMap.not_hasPair_init k v

theorem C8_free_pass_preserves_datas_witness :
    FlatMap.Inv FlatMap.init ∧
    ((∀ x ∈ freeCalls [(⟨5, false, true⟩ : ClassDesc)].length
        { Object_create with classes := [⟨5, false, true⟩] },
      x.2.datas = FlatMap.init ∧ x.2.methods = FlatMap.init ∧
        x.2.supermethods = FlatMap.init) ∧
    (∀ x ∈ freeCalls [(⟨5, false, true⟩ : ClassDesc)].length
        { Object_create with classes := [⟨5, false, true⟩] },
      ∀ c ∈ [(⟨5, false, true⟩ : ClassDesc)], ∀ d,
      FlatMap.HasPair FlatMap.init c.id d →
        Object_class_check (some x.2) c.id = (true, some d)) ∧
    ((freePassGo [(⟨5, false, true⟩ : ClassDesc)].length
        { Object_create with classes := [⟨5, false, true⟩] }).1.datas
        = FlatMap.init ∧
      (freePassGo [(⟨5, false, true⟩ : ClassDesc)].length
        { Object_create with classes := [⟨5, false, true⟩] }).1.methods
        = FlatMap.init ∧
      (freePassGo [(⟨5, false, true⟩ : ClassDesc)].length
        { Object_create with classes := [⟨5, false, true⟩] }).1.supermethods
        = FlatMap.init) ∧
    ((teardownCore { Object_create with classes := [⟨5, false, true⟩] }).1.datas
        = FlatMap.init ∧
      (teardownCore { Object_create with classes := [⟨5, false, true⟩] }).1.methods
        = FlatMap.init ∧
      (teardownCore { Object_create with
        classes := [⟨5, false, true⟩] }).1.supermethods = FlatMap.init ∧
      ∀ k v, ¬ FlatMap.HasPair
        (teardownCore { Object_create with
          classes := [⟨5, false, true⟩] }).1.datas k v)) :=
  ⟨FlatMap.Inv_init,
    C8_free_pass_preserves_datas { Object_create with classes := [⟨5, false, true⟩] }
      FlatMap.Inv_init FlatMap.Inv_init FlatMap.Inv_init⟩

/-! ## Method override chains -/

/-- C3 counterexample: the claim asserts `superMethod(M1)` answers NULL
after `pushMethod(d, M1); pushMethod(d, M2)` whenever `d` had no entry —
but M1 may already carry a supermethod from overriding a different
dispatcher.  Pushing (1 ↦ 2), (1 ↦ 3), then (4 ↦ 3), (4 ↦ 5) satisfies
the claim's premises for d = 4, M1 = 3, M2 = 5 (dispatcher 4 fresh, as
the first conjunct checks), and `resolveMethod`/`superMethod(M2)` answer
as claimed — yet `superMethod(3)` answers 2, not NULL. -/
theorem C3_counterexample :
    Object_method_get (Object_method_push (Object_method_push
      (some Object_create) 1 2) 1 3) 4 = none ∧
    Object_method_get (Object_method_push (Object_method_push (Object_method_push
      (Object_method_push (some Object_create) 1 2) 1 3) 4 3) 4 5) 4 = some 5 ∧
    Object_supermethod_get (Object_method_push (Object_method_push
      (Object_method_push (Object_method_push
        (some Object_create) 1 2) 1 3) 4 3) 4 5) 5 = some 3 ∧
    Object_supermethod_get (Object_method_push (Object_method_push
      (Object_method_push (Object_method_push
        (some Object_create) 1 2) 1 3) 4 3) 4 5) 3 = some 2 ∧
    (some 2 : Option Nat) ≠ none := by
  decide

/-- C3 (amended: M1 and M2 must also be absent from the `supermethods`
map, e.g. neither has overridden anything before, and the handle's
`methods` and `supermethods` tables must each hold fewer than `2 ^ 14`
entries — the inserts otherwise hit the map's `uint16_t` growth
boundary): pushing M1 then M2 on a dispatcher with no entry makes
`resolveMethod(d)` answer M2, `superMethod(M2)` answer M1, and
`superMethod(M1)` answer NULL. -/
theorem C3_method_override (o : Object) (d M1 M2 : Nat)
    (hm : FlatMap.Inv o.methods) (hsm : FlatMap.Inv o.supermethods)
    (hszm : o.methods.size < 2 ^ 14) (hszs : o.supermethods.size < 2 ^ 14)
    (hd0 : d ≠ 0) (hM2 : M2 ≠ 0) (hne : M2 ≠ M1)
    (hdfresh : o.methods.find d = none)
    (h1fresh : o.supermethods.find M1 = none)
    (h2fresh : o.supermethods.find M2 = none) :
    ∃ o1 o2, Object_method_push (some o) d M1 = some o1 ∧
      Object_method_push (some o1) d M2 = some o2 ∧
      Object_method_get (some o2) d = some M2 ∧
      Object_supermethod_get (some o2) M2 = some M1 ∧
      Object_supermethod_get (some o2) M1 = none := by
  obtain ⟨ms, hins, hims, hpairs, -, -⟩ :=
    FlatMap.insert_spec hm M1 hd0 (FlatMap.hsafe_of_size hszm)
  have ho1 : Object_method_push (some o) d M1 = some { o with methods := ms } := by
    simp only [Object_method_push, hdfresh, hins]
  have hfind1 : ms.find d = some M1 :=
    (FlatMap.find_iff hims).mpr ((hpairs d M1).mpr (Or.inl ⟨rfl, rfl⟩))
  obtain ⟨sm2, hins2, hinvsm2, hpairs2, -, -⟩ :=
    FlatMap.insert_spec hsm M1 hM2 (FlatMap.hsafe_of_size hszs)
  obtain ⟨hinvwt, -, -, -, hpairswt⟩ :=
    FlatMap.writeThrough_spec hims M2 hfind1
  have ho2 : Object_method_push (some { o with methods := ms }) d M2 =
      some { o with methods := ms.writeThrough d M2, supermethods := sm2 } := by
    simp only [Object_method_push, hfind1, h2fresh, hins2, Option.isNone_none,
      if_true]
  refine ⟨{ o with methods := ms },
    { o with methods := ms.writeThrough d M2, supermethods := sm2 },
    ho1, ho2, ?_, ?_, ?_⟩
  · show (ms.writeThrough d M2).find d = some M2
    exact (FlatMap.find_iff hinvwt).mpr ((hpairswt d M2).mpr (Or.inl ⟨rfl, rfl⟩))
  · show sm2.find M2 = some M1
    exact (FlatMap.find_iff hinvsm2).mpr ((hpairs2 M2 M1).mpr (Or.inl ⟨rfl, rfl⟩))
  · show sm2.find M1 = none
    rw [FlatMap.find_eq_none_iff hinvsm2]
    intro v hp
    rcases (hpairs2 M1 v).mp hp with ⟨h12, -⟩ | ⟨-, hp'⟩
    · exact hne h12.symm
    · have := (FlatMap.find_iff hsm).mpr hp'
      rw [h1fresh] at this
      cases this

theorem C3_method_override_witness :
    (FlatMap.Inv Object_create.methods ∧ FlatMap.Inv Object_create.supermethods ∧
      Object_create.methods.size < 2 ^ 14 ∧
      Object_create.supermethods.size < 2 ^ 14 ∧
      (1 : Nat) ≠ 0 ∧ (3 : Nat) ≠ 0 ∧ (3 : Nat) ≠ 2 ∧
      Object_create.methods.find 1 = none ∧
      Object_create.supermethods.find 2 = none ∧
      Object_create.supermethods.find 3 = none) ∧
    (∃ o1 o2, Object_method_push (some Object_create) 1 2 = some o1 ∧
      Object_method_push (some o1) 1 3 = some o2 ∧
      Object_method_get (some o2) 1 = some 3 ∧
      Object_supermethod_get (some o2) 3 = some 2 ∧
      Object_supermethod_get (some o2) 2 = none) :=
  ⟨⟨FlatMap.Inv_init, FlatMap.Inv_init, by decide, by decide, by decide,
      by decide, by decide, by decide, by decide, by decide⟩,
    C3_method_override Object_create 1 2 3 FlatMap.Inv_init FlatMap.Inv_init
      (by decide) (by decide) (by decide) (by decide) (by decide) (by decide)
      (by decide) (by decide)⟩

/-! ## Class attachment -/

/-- C6 counterexample: the claim quantifies over every handle, but if the
handle already carries class 5 with data 7, the claimed "first" attach
with d1 = 1 is itself the no-op: `dataOf` answers the original 7, not
d1 = 1. -/
theorem C6_counterexample :
    Object_class_check (Object_class_push (Object_class_push (Object_class_push
      (some Object_create) ⟨5, false, false⟩ 7) ⟨5, false, false⟩ 1)
      ⟨5, false, false⟩ 2) 5 = (true, some 7) ∧
    ((true, some 7) : Bool × Option Nat) ≠ (true, some 1) := by
  decide

/-- C6 (amended: the handle must not already carry class c, registry
classes are those with a `datas` entry, and the `datas` table must hold
fewer than `2 ^ 14` classes — the insert otherwise hits the map's
`uint16_t` growth boundary): after `attachClass(c, d1)`, a second
`attachClass(c, d2)` returns the identical state, `dataOf` still answers
d1, c sits exactly once in the registry, and teardown's finalize and
free passes each mention c exactly once (when the respective callback
slot is non-null). -/
theorem C6_class_push_idempotent (o : Object) (c : ClassDesc) (d1 d2 : Nat)
    (hInv : FlatMap.Inv o.datas) (hsz : o.datas.size < 2 ^ 14) (hc0 : c.id ≠ 0)
    (hfresh : o.datas.find c.id = none)
    (hreg : ∀ c' ∈ o.classes, o.datas.find c'.id ≠ none) :
    ∃ o1, Object_class_push (some o) c d1 = some o1 ∧
      Object_class_push (some o1) c d2 = some o1 ∧
      Object_class_check (some o1) c.id = (true, some d1) ∧
      o1.classes = o.classes ++ [c] ∧
      o1.classes.filter (fun c' => c'.id == c.id) = [c] ∧
      finalizeEvents o1.classes =
        (if c.hasFinalize then [Event.finalize c.id] else [])
          ++ finalizeEvents o.classes ∧
      Event.finalize c.id ∉ finalizeEvents o.classes ∧
      (freePassGo o1.classes.length o1).2 =
        (if c.hasFree then [Event.free c.id] else [])
          ++ (o.classes.reverse.filter (fun c' => c'.hasFree)).map
              (fun c' => Event.free c'.id) ∧
      Event.free c.id ∉ (o.classes.reverse.filter (fun c' => c'.hasFree)).map
        (fun c' => Event.free c'.id) := by
  have hne' : ∀ c' ∈ o.classes, c'.id ≠ c.id := by
    intro c' hc' he
    exact hreg c' hc' (he ▸ hfresh)
  obtain ⟨dm, hins, hinvdm, hpairs, -, -⟩ :=
    FlatMap.insert_spec hInv d1 hc0 (FlatMap.hsafe_of_size hsz)
  have hfind1 : dm.find c.id = some d1 :=
    (FlatMap.find_iff hinvdm).mpr ((hpairs c.id d1).mpr (Or.inl ⟨rfl, rfl⟩))
  refine ⟨{ o with datas := dm, classes := o.classes ++ [c] }, ?_, ?_, ?_, rfl,
    ?_, ?_, ?_, ?_, ?_⟩
  · simp only [Object_class_push, hfresh, hins]
  · simp only [Object_class_push, hfind1]
  · simp only [Object_class_check, hfind1]
  · show (o.classes ++ [c]).filter (fun c' => c'.id == c.id) = [c]
    rw [List.filter_append]
    have h1 : o.classes.filter (fun c' => c'.id == c.id) = [] := by
      rw [List.filter_eq_nil_iff]
      intro c' hc'
      simp [hne' c' hc']
    rw [h1, List.nil_append, List.filter_cons]
    simp
  · show finalizeEvents (o.classes ++ [c]) = _
    rw [finalizeEvents_eq, finalizeEvents_eq, List.reverse_append,
      List.reverse_singleton, List.singleton_append, List.filter_cons]
    cases hc : c.hasFinalize <;> simp [hc]
  · intro hmem
    rw [finalizeEvents_eq] at hmem
    simp only [List.mem_map, List.mem_filter, List.mem_reverse] at hmem
    obtain ⟨c', ⟨hc', -⟩, hid⟩ := hmem
    injection hid with h
    exact hne' c' hc' h
  · have hfp := freePassGo_spec (o.classes ++ [c])
      { o with datas := dm, classes := o.classes ++ [c] } rfl
    show (freePassGo (o.classes ++ [c]).length
      { o with datas := dm, classes := o.classes ++ [c] }).2 = _
    rw [hfp]
    show ((o.classes ++ [c]).reverse.filter (fun c' => c'.hasFree)).map
      (fun c' => Event.free c'.id) = _
    rw [List.reverse_append, List.reverse_singleton, List.singleton_append,
      List.filter_cons]
    cases hc : c.hasFree <;> simp [hc]
  · intro hmem
    simp only [List.mem_map, List.mem_filter, List.mem_reverse] at hmem
    obtain ⟨c', ⟨hc', -⟩, hid⟩ := hmem
    injection hid with h
    exact hne' c' hc' h

theorem C6_class_push_idempotent_witness :
    (FlatMap.Inv Object_create.datas ∧ Object_create.datas.size < 2 ^ 14 ∧
      (5 : Nat) ≠ 0 ∧
      Object_create.datas.find 5 = none ∧
      (∀ c' ∈ Object_create.classes, Object_create.datas.find c'.id ≠ none)) ∧
    (∃ o1, Object_class_push (some Object_create) ⟨5, true, true⟩ 7 = some o1 ∧
      Object_class_push (some o1) ⟨5, true, true⟩ 9 = some o1 ∧
      Object_class_check (some o1) (5 : Nat) = (true, some 7) ∧
      o1.classes = Object_create.classes ++ [⟨5, true, true⟩] ∧
      o1.classes.filter (fun c' => c'.id == (5 : Nat)) = [⟨5, true, true⟩] ∧
      finalizeEvents o1.classes =
        (if true then [Event.finalize 5] else [])
          ++ finalizeEvents Object_create.classes ∧
      Event.finalize 5 ∉ finalizeEvents Object_create.classes ∧
      (freePassGo o1.classes.length o1).2 =
        (if true then [Event.free 5] else [])
          ++ (Object_create.classes.reverse.filter (fun c' => c'.hasFree)).map
              (fun c' => Event.free c'.id) ∧
      Event.free 5 ∉ (Object_create.classes.reverse.filter
        (fun c' => c'.hasFree)).map (fun c' => Event.free c'.id)) :=
  ⟨⟨FlatMap.Inv_init, by decide, by decide, by decide, by simp [Object_create]⟩,
    C6_class_push_idempotent Object_create ⟨5, true, true⟩ 7 9 FlatMap.Inv_init
      (by decide) (by decide) (by decide) (by simp [Object_create])⟩

/-! ## Packed refcount arithmetic -/

theorem strongOf_eq_of_lt {r : Nat} (h : r < 2 ^ 32) : strongOf r = r := by
  unfold strongOf MASK32
  rw [show (0xFFFFFFFF : Nat) = 2 ^ 32 - 1 from by norm_num,
    Nat.and_pow_two_sub_one_eq_mod]
  exact Nat.mod_eq_of_lt h

theorem fetchAdd_eq {r x : Nat} (h : r + x < 2 ^ 64) : fetchAdd r x = r + x :=
  Nat.mod_eq_of_lt h

theorem fetchSub_eq {r x : Nat} (hx : x ≤ r) (hr : r < 2 ^ 64) (hx2 : x ≤ 2 ^ 64) :
    fetchSub r x = r - x := by
  unfold fetchSub
  rw [show r + (2 ^ 64 - x) = (r - x) + 2 ^ 64 from by omega, Nat.add_mod_right]
  exact Nat.mod_eq_of_lt (by omega)

/-- While the packed word stays below `2 ^ 32` (so the strong count is the
word itself and never 0), each `Object_ref` adds exactly 1. -/
theorem refIter_adds (o : Object) : ∀ n : Nat, 1 ≤ o.refs → o.refs + n ≤ 2 ^ 32 →
    refIter n (some o) = some { o with refs := o.refs + n } := by
  intro n
  induction n generalizing o with
  | zero =>
    intro h1 h2
    show some o = some { o with refs := o.refs + 0 }
    rw [Nat.add_zero]
  | succ k ih =>
    intro h1 h2
    have h32 : (2 : Nat) ^ 32 = 4294967296 := by norm_num
    have h64 : (2 : Nat) ^ 64 = 18446744073709551616 := by norm_num
    have hs : strongOf o.refs = o.refs := strongOf_eq_of_lt (by omega)
    have hstep : Object_ref (some o) = some { o with refs := o.refs + 1 } := by
      simp only [Object_ref, hs]
      rw [if_neg (by omega), fetchAdd_eq (by omega)]
    rw [refIter, hstep]
    have := ih { o with refs := o.refs + 1 } (by show 1 ≤ o.refs + 1; omega)
      (by show o.refs + 1 + k ≤ 2 ^ 32; omega)
    rw [show o.refs + (k + 1) = o.refs + 1 + k from by omega]
    exact this

/-- Once the strong count is 0, `Object_unref` is a guarded no-op, and so
is any number of them: no teardown ever fires. -/
theorem unrefSeq_stuck (o : Object) (hs : strongOf o.refs = 0) :
    ∀ n, unrefSeq n (some o) = (some o, 0, []) := by
  intro n
  induction n with
  | zero => rfl
  | succ k ih =>
    have hstep : Object_unref (some o) = (some o, false, []) := by
      simp [Object_unref, hs]
    simp only [unrefSeq, hstep, ih]
    simp

/-- One-step unfolding of `unrefSeq`. -/
theorem unrefSeq_succ (n : Nat) (h : Option Object) :
    unrefSeq (n + 1) h =
      ((unrefSeq n (Object_unref h).1).1,
        (if (Object_unref h).2.1 then 1 else 0) +
          (unrefSeq n (Object_unref h).1).2.1,
        (Object_unref h).2.2 ++ (unrefSeq n (Object_unref h).1).2.2) := rfl

/-- `Object_unref` at strong count exactly 1: decrement, then teardown and
the final weak unref. -/
theorem unref_teardown (o : Object) (h1 : strongOf o.refs = 1) :
    Object_unref (some o) =
      (Object_weak_unref
          (some (teardownCore { o with refs := fetchSub o.refs 1 }).1),
        true, (teardownCore { o with refs := fetchSub o.refs 1 }).2) := by
  simp only [Object_unref, h1]
  rw [if_neg (by omega : ¬ (1 : Nat) = 0), if_neg (by omega : ¬ (1 : Nat) ≠ 1)]

/-- Counting down from strong count `k + 1`: the first `k` unrefs just
decrement, the last one tears down. -/
theorem unrefSeq_countdown : ∀ (k : Nat) (o : Object), o.refs = k + 1 →
    k + 1 ≤ 2 ^ 32 - 1 →
    unrefSeq (k + 1) (some o) =
      (Object_weak_unref (some (teardownCore { o with refs := 0 }).1), 1,
        (teardownCore { o with refs := 0 }).2) := by
  intro k
  induction k with
  | zero =>
    intro o hr hb
    simp only [Nat.zero_add] at hr
    have hsf : strongOf o.refs = 1 := by
      rw [hr]
      decide
    rw [unrefSeq_succ, unref_teardown o hsf, hr,
      show fetchSub 1 1 = 0 from by decide]
    simp [unrefSeq]
  | succ j ih =>
    intro o hr hb
    have h32 : (2 : Nat) ^ 32 = 4294967296 := by norm_num
    have h64 : (2 : Nat) ^ 64 = 18446744073709551616 := by norm_num
    have hs2 : strongOf o.refs = j + 1 + 1 := by
      rw [hr]
      exact strongOf_eq_of_lt (by omega)
    have hstep : Object_unref (some o) = (some { o with refs := j + 1 }, false, []) := by
      simp only [Object_unref, hs2]
      rw [if_neg (by omega), if_pos (by omega), hr,
        fetchSub_eq (by omega) (by omega) (by omega),
        show j + 1 + 1 - 1 = j + 1 from rfl]
    have hrec := ih { o with refs := j + 1 } rfl (by omega)
    rw [unrefSeq_succ, hstep]
    simp only [hrec]
    simp [unrefSeq]

/-- With the three maps well-formed, teardown hands the final weak unref a
state whose registry and maps are empty and whose packed word gained the
guard weak reference; the recorded events are the reverse-order finalize
pass followed by the reverse-order free pass. -/
theorem teardownCore_spec (o : Object)
    (hd : FlatMap.Inv o.datas) (hm : FlatMap.Inv o.methods)
    (hs : FlatMap.Inv o.supermethods) :
    teardownCore o =
      ({ classes := [], datas := FlatMap.init, methods := FlatMap.init,
         supermethods := FlatMap.init, refs := fetchAdd o.refs (2 ^ 32) },
        (o.classes.reverse.filter (fun c => c.hasFinalize)).map
            (fun c => Event.finalize c.id)
          ++ (o.classes.reverse.filter (fun c => c.hasFree)).map
            (fun c => Event.free c.id)) := by
  have hfp := freePassGo_spec o.classes
    { o with refs := fetchAdd o.refs (2 ^ 32) } rfl
  simp only [teardownCore, hfp, finalizeEvents_eq]
  rw [FlatMap.clear_eq_init hd, FlatMap.clear_eq_init hm, FlatMap.clear_eq_init hs]

/-- C2 counterexample: at N = 2^32 - 1 the N-th `Object_ref` pushes the
packed word to 2^32, i.e. strong count 0 (the 32-bit strong field wraps).
Every one of the N + 1 following `Object_unref` calls then hits the
strong-count-0 guard: teardown fires 0 times — not exactly once — no
callback runs, and the shell survives with the word stuck at 2^32. -/
theorem C2_counterexample :
    (unrefSeq (2 ^ 32 - 1 + 1) (refIter (2 ^ 32 - 1) (some Object_create))).2.1
        = 0 ∧
    (unrefSeq (2 ^ 32 - 1 + 1) (refIter (2 ^ 32 - 1) (some Object_create))).1 =
      some { Object_create with refs := 2 ^ 32 } ∧
    (unrefSeq (2 ^ 32 - 1 + 1) (refIter (2 ^ 32 - 1) (some Object_create))).2.2
        = [] := by
  have h32 : (2 : Nat) ^ 32 = 4294967296 := by norm_num
  have hiter := refIter_adds Object_create (2 ^ 32 - 1) le_rfl
    (by show 1 + (2 ^ 32 - 1) ≤ 2 ^ 32; omega)
  rw [hiter]
  have hrefs : Object_create.refs + (2 ^ 32 - 1) = 2 ^ 32 := by
    show 1 + (2 ^ 32 - 1) = 2 ^ 32
    omega
  rw [hrefs]
  rw [unrefSeq_stuck { Object_create with refs := 2 ^ 32 } (by decide)
    (2 ^ 32 - 1 + 1)]
  exact ⟨rfl, rfl, rfl⟩

/-- C2 (amended: N ≤ 2^32 - 2, keeping the 32-bit strong count from
wrapping): from a fresh handle (strong count 1), N refs followed by
N + 1 unrefs triggers teardown exactly once and deletes the shell; the
teardown records each attached class's finalize callback in reverse
attachment order, then each free callback in reverse attachment order,
and hands the final weak unref a state with an empty registry and the
three maps cleared. -/
theorem C2_refcount_lifecycle (o : Object) (N : Nat) (hN : N ≤ 2 ^ 32 - 2)
    (hrefs : o.refs = 1) (hd : FlatMap.Inv o.datas) (hm : FlatMap.Inv o.methods)
    (hs : FlatMap.Inv o.supermethods) :
    (unrefSeq (N + 1) (refIter N (some o))).2.1 = 1 ∧
    (unrefSeq (N + 1) (refIter N (some o))).1 = none ∧
    Object_refs_get (unrefSeq (N + 1) (refIter N (some o))).1 = 0 ∧
    (unrefSeq (N + 1) (refIter N (some o))).2.2 =
      (o.classes.reverse.filter (fun c => c.hasFinalize)).map
          (fun c => Event.finalize c.id)
        ++ (o.classes.reverse.filter (fun c => c.hasFree)).map
          (fun c => Event.free c.id) ∧
    (teardownCore { o with refs := 0 }).1.classes = [] ∧
    (teardownCore { o with refs := 0 }).1.datas = FlatMap.init ∧
    (teardownCore { o with refs := 0 }).1.methods = FlatMap.init ∧
    (teardownCore { o with refs := 0 }).1.supermethods = FlatMap.init := by
  have h32 : (2 : Nat) ^ 32 = 4294967296 := by norm_num
  have hiter := refIter_adds o N (by omega) (by omega)
  rw [hiter]
  have hcd := unrefSeq_countdown N { o with refs := o.refs + N }
    (by show o.refs + N = N + 1; omega) (by omega)
  rw [hcd]
  have htd := teardownCore_spec { o with refs := 0 } hd hm hs
  simp only [htd]
  have hw : Object_weak_unref (some ({ classes := [], datas := FlatMap.init,
                                       methods := FlatMap.init,
                                       supermethods := FlatMap.init,
                                       refs := fetchAdd 0 (2 ^ 32) } : Object))
      = none := by
    simp only [Object_weak_unref]
    rw [if_neg (by decide), if_pos (by decide)]
  rw [hw]
  exact ⟨trivial, rfl, rfl, trivial, trivial, trivial, trivial, trivial⟩

theorem C2_refcount_lifecycle_witness :
    (1 : Nat) ≤ 2 ^ 32 - 2 ∧
    ({ Object_create with
        classes := [⟨5, true, true⟩, ⟨6, true, false⟩] } : Object).refs = 1 ∧
    FlatMap.Inv FlatMap.init ∧
    (unrefSeq (1 + 1) (refIter 1 (some { Object_create with
        classes := [⟨5, true, true⟩, ⟨6, true, false⟩] }))).2.1 = 1 ∧
    (unrefSeq (1 + 1) (refIter 1 (some { Object_create with
        classes := [⟨5, true, true⟩, ⟨6, true, false⟩] }))).1 = none :=
  ⟨by decide, rfl, FlatMap.Inv_init,
    (C2_refcount_lifecycle
      { Object_create with classes := [⟨5, true, true⟩, ⟨6, true, false⟩] } 1
      (by decide) rfl FlatMap.Inv_init FlatMap.Inv_init FlatMap.Inv_init).1,
    (C2_refcount_lifecycle
      { Object_create with classes := [⟨5, true, true⟩, ⟨6, true, false⟩] } 1
      (by decide) rfl FlatMap.Inv_init FlatMap.Inv_init FlatMap.Inv_init).2.1⟩
